import Mathlib

/-!
# Verification of `cvifier` (`src/cvifier/core.py`)

Shallow embedding of the core module of the `cvifier` repository and proofs
about the claims of its specification.  Python strings are modelled as
`List Char` (with `String` wrappers at the boundaries); Python dictionaries
as association lists; fallible code returns `Except PyError`.

The external collaborators (docutils parsing/rendering, the filesystem and
the `str.format` builtin) are abstracted as parameters of the orchestrator,
following the spec's "collaborator contracts".
-/

namespace Cvifier

/-- Python exception taxonomy used by the embedded code. -/
inductive PyError : Type where
  | typeError (msg : String)
  | nameError (msg : String)
  | ioError (msg : String)
  | valueError (msg : String)
  | keyError (msg : String)
  | indexError (msg : String)
deriving DecidableEq, Repr

/- ## Python string primitives, modelled on `List Char` -/

/-- Whitespace characters recognised by Python `str.strip` / `str.rstrip`. -/
def pySpace (c : Char) : Bool :=
  c = ' ' || c = '\t' || c = '\n' || c = '\r' || c = Char.ofNat 11 || c = Char.ofNat 12

/-- Python `s.rstrip()` on a character list. -/
def rstripLC (l : List Char) : List Char :=
  (l.reverse.dropWhile pySpace).reverse

/-- Python `s.strip()` on a character list. -/
def stripLC (l : List Char) : List Char :=
  rstripLC (l.dropWhile pySpace)

/-- Python `s.split(sep)` for a one-character separator. -/
def splitCh (sep : Char) : List Char → List (List Char)
  | [] => [[]]
  | c :: rest =>
    if c = sep then [] :: splitCh sep rest
    else
      match splitCh sep rest with
      | [] => [[c]]
      | h :: t => (c :: h) :: t

/-- Python `sep.join(lines)` for a one-character separator. -/
def joinCh (sep : Char) : List (List Char) → List Char
  | [] => []
  | [l] => l
  | l :: l' :: ls => l ++ sep :: joinCh sep (l' :: ls)

/-- `s.split('\n')`. -/
def splitNl : List Char → List (List Char) := splitCh '\n'

/-- `'\n'.join(lines)`. -/
def joinNl : List (List Char) → List Char := joinCh '\n'

/-- Python substring test `sub in s`. -/
def containsSub (sub : List Char) : List Char → Bool
  | [] => sub.isEmpty
  | c :: rest => sub.isPrefixOf (c :: rest) || containsSub sub rest

/-- Python `s.count(sub)`: non-overlapping occurrences, scanning left to
right and jumping over each match.  The fuel argument (instantiated with
the length of the scanned list) keeps the recursion structural. -/
def countOccFuel (sub : List Char) : Nat → List Char → Nat
  | 0, _ => 0
  | _, [] => 0
  | fuel + 1, c :: rest =>
    if sub.isPrefixOf (c :: rest) then
      1 + countOccFuel sub fuel (rest.drop (sub.length - 1))
    else
      countOccFuel sub fuel rest

/-- Python `s.count(sub)`. -/
def countOcc (sub s : List Char) : Nat := countOccFuel sub s.length s

/-- String wrapper: `sub in s`. -/
def containsStr (s sub : String) : Bool := containsSub sub.data s.data

/-- String wrapper: `s.count(sub)`. -/
def countStr (s sub : String) : Nat := countOcc sub.data s.data

/-- String wrapper: `s.split('\n')`. -/
def pySplitLines (s : String) : List String := (splitNl s.data).map String.mk

/-- String wrapper: `'\n'.join(lines)`. -/
def pyJoinLines (ls : List String) : String := String.mk (joinNl (ls.map String.data))

/-- String wrapper: `s.strip()`. -/
def pyStrip (s : String) : String := String.mk (stripLC s.data)

/-- String wrapper: `s.rstrip()`. -/
def pyRstrip (s : String) : String := String.mk (rstripLC s.data)

/-- String wrapper: `s.split(sep)` for a one-character separator. -/
def pySplitOn (s : String) (sep : Char) : List String := (splitCh sep s.data).map String.mk

/-- Python `s.lower()`. -/
def pyLower (s : String) : String := String.mk (s.data.map Char.toLower)

/-- Association-list lookup for Python dictionaries (first binding wins). -/
def lookupD {α : Type} : List (String × α) → String → Option α
  | [], _ => none
  | (k', v) :: rest, k => if k' = k then some v else lookupD rest k

/-- Python `k in d` for a dictionary. -/
def hasKey {α : Type} (d : List (String × α)) (k : String) : Bool :=
  (lookupD d k).isSome

/-- Python `del d[k]` / the removal part of `d.pop(k)`. -/
def removeKey {α : Type} (d : List (String × α)) (k : String) : List (String × α) :=
  d.filter (fun kv => kv.1 ≠ k)

/- ## Section-Format Parser: `load_settings` (core.py lines 47-122) -/

/-- The name part of the header regex `\[(.*?)\](.*)`: lazily scan for the
first `]`; the dot of the regex does not cross a newline. -/
def scanName : List Char → Option (List Char × List Char)
  | [] => none
  | x :: xs =>
    if x = ']' then some ([], xs)
    else if x = '\n' then none
    else
      match scanName xs with
      | some (n, r) => some (x :: n, r)
      | none => none

/-- `re.match(r'\[(.*?)\](.*)', l)`: a leading `[`, the lazily-matched
name up to the first `]`, and the greedy remainder of the line as trailing
content (the regex dot stops at a newline; `re.match` may match a strict
initial part of the string). -/
def markerMatch (l : List Char) : Option (List Char × List Char) :=
  match l with
  | c :: rest =>
    if c = '[' then
      match scanName rest with
      | some (n, r) => some (n, r.takeWhile (fun ch => ch ≠ '\n'))
      | none => none
    else none
  | [] => none

/-- The comment regex `(.*?)((?<!\\)MARK)`: scan for the first occurrence of
the marker not preceded by a backslash (the source interpolates the marker
into the regex; the settings format uses single-character markers, which is
what we model).  Returns group 1 (the text before the marker) when the
regex matches.  `prev` is the character before the scan position, for the
negative lookbehind. -/
def scanCom (mark : Char) (prev : Option Char) : List Char → Option (List Char)
  | [] => none
  | x :: xs =>
    if x = mark ∧ prev ≠ some '\\' then some []
    else if x = '\n' then none
    else
      match scanCom mark (some x) xs with
      | some g => some (x :: g)
      | none => none

/-- Comment handling for one line (core.py lines 102-109):
if the comment regex matches, the line is replaced by group 1, and a line
that became empty is dropped entirely (`continue`), signalled by `none`.
The subsequent `l.replace(esccomment, comment)` of the source discards its
result (strings are immutable), so it has no effect and nothing models it. -/
def commentProcess (comment : Option Char) (l : List Char) : Option (List Char) :=
  match comment with
  | none => some l
  | some mark =>
    match scanCom mark none l with
    | some g => if g = [] then none else some g
    | none => some l

/-- State of the line loop of `load_settings`: `seccontent` (a defaultdict
of line lists), `orderedsections`, and `insection`. -/
structure PState : Type where
  sec : List (List Char × List (List Char))
  ordered : List (List Char)
  ins : Option (List Char)
deriving Repr

/-- `seccontent[k]` of the `defaultdict(list)` (default `[]`). -/
def getSec : List (List Char × List (List Char)) → List Char → List (List Char)
  | [], _ => []
  | (k', v) :: rest, k => if k' = k then v else getSec rest k

/-- `seccontent[k].append(l)`. -/
def appendSec : List (List Char × List (List Char)) → List Char → List Char →
    List (List Char × List (List Char))
  | [], k, l => [(k, [l])]
  | (k', v) :: rest, k, l =>
    if k' = k then (k', v ++ [l]) :: rest else (k', v) :: appendSec rest k l

/-- Python truthiness of `insection` (`None` and the empty string are falsy). -/
def truthy : Option (List Char) → Bool
  | none => false
  | some s => !s.isEmpty

/-- The initial loop state. -/
def initPState : PState := ⟨[], [], none⟩

/-- The error raised for a header line with extra content (core.py line 117). -/
def headerErr (l : List Char) : PyError :=
  .valueError ("Content had a line that looks like a section header, " ++
    "but with extra content:" ++ String.mk l)

/-- One iteration of the line loop of `load_settings` (core.py lines 101-120). -/
def stepLine (comment : Option Char) (st : PState) (l : List Char) :
    Except PyError PState :=
  match commentProcess comment l with
  | none => .ok st
  | some l =>
    match markerMatch l with
    | none =>
      if truthy st.ins then
        .ok { st with sec := appendSec st.sec (st.ins.getD []) l }
      else
        .ok st
    | some (name, trailing) =>
      if stripLC trailing ≠ [] then .error (headerErr l)
      else .ok { st with ordered := st.ordered ++ [name], ins := some name }

/-- The line loop of `load_settings`. -/
def runLines (comment : Option Char) (st : PState) :
    List (List Char) → Except PyError PState
  | [] => .ok st
  | l :: ls =>
    match stepLine comment st l with
    | .error e => .error e
    | .ok st' => runLines comment st' ls

/-- Keep the first occurrence of each element, in order (the behaviour of
building an `OrderedDict` from a key list with duplicates: a repeated key
keeps its first position). -/
def dedupFirstAux {α : Type} [DecidableEq α] (seen : List α) : List α → List α
  | [] => []
  | x :: xs =>
    if x ∈ seen then dedupFirstAux seen xs
    else x :: dedupFirstAux (seen ++ [x]) xs

/-- First-occurrence deduplication. -/
def dedupFirst {α : Type} [DecidableEq α] (l : List α) : List α := dedupFirstAux [] l

/-- The final `OrderedDict([(k, '\n'.join(seccontent[k]).rstrip()) for k in
orderedsections])` (core.py line 122). -/
def finishMap (st : PState) : List (List Char × List Char) :=
  (dedupFirst st.ordered).map (fun k => (k, rstripLC (joinNl (getSec st.sec k))))

/-- `load_settings` on a list of lines (the `content` is a list of strings
branch of core.py lines 93-96; `str(l)` is the identity on strings). -/
def parseLinesTop (comment : Option Char) (ls : List (List Char)) :
    Except PyError (List (List Char × List Char)) :=
  (runLines comment initPState ls).map finishMap

/-- `load_settings` on full file text (the string/stream branches of core.py
lines 88-92 read the file and split on newlines). -/
def parseTextLC (comment : Option Char) (content : List Char) :
    Except PyError (List (List Char × List Char)) :=
  parseLinesTop comment (splitNl content)

/-- `load_settings` with `String` input and output (file/path resolution of
the first branch is performed by the caller of this model). -/
def load_settings (content : String) (comment : Option Char) :
    Except PyError (List (String × String)) :=
  (parseTextLC comment content.data).map
    (fun m => m.map (fun kv => (String.mk kv.1, String.mk kv.2)))

/-- Reconstruction of the section format from a Section Map: the blocks
`[name]\n<body>` joined by newlines (spec section 8, round-trip property). -/
def reconstructLC (m : List (List Char × List Char)) : List Char :=
  joinNl (m.map (fun kv => '[' :: kv.1 ++ ']' :: '\n' :: kv.2))

/-- `String`-level reconstruction. -/
def reconstructS (m : List (String × String)) : String :=
  String.mk (reconstructLC (m.map (fun kv => (kv.1.data, kv.2.data))))

/-- The sequence of section headers of an input, in arrival order: the
names of the lines that (after comment processing) match the header
pattern with blank trailing content. -/
def headerSeq (comment : Option Char) (ls : List (List Char)) : List (List Char) :=
  ls.filterMap (fun l =>
    (commentProcess comment l).bind (fun l' =>
      match markerMatch l' with
      | some (n, t) => if stripLC t = [] then some n else none
      | none => none))

/-- The shape invariant of a Section-Map entry produced by the parser:
its key contains no `]` and no newline, its body is right-trimmed, no
body line looks like a header, and the empty-string key carries an empty
body (lines of an empty-named section are never accumulated). -/
structure GoodEntry (kv : List Char × List Char) : Prop where
  noBr : ']' ∉ kv.1
  noNl : '\n' ∉ kv.1
  stripped : rstripLC kv.2 = kv.2
  bodyLines : ∀ a ∈ splitNl kv.2, markerMatch a = none
  emptyKey : kv.1 = [] → kv.2 = []

/-- The invariant the line loop maintains on its state. -/
structure ParseInv (st : PState) : Prop where
  ordKeys : ∀ k ∈ st.ordered, ']' ∉ k ∧ '\n' ∉ k
  secLines : ∀ k a, a ∈ getSec st.sec k → markerMatch a = none ∧ '\n' ∉ a
  secEmptyKey : getSec st.sec [] = []

/-- The lines a reconstructed block `[name]\n<body>` splits back into. -/
def blockLines (kv : List Char × List Char) : List (List Char) :=
  ('[' :: kv.1 ++ [']']) :: splitNl kv.2

/-- The body lines reparsing a reconstruction appends under key `k`:
the split bodies of the entries named `k` (none for the falsy empty name). -/
def bodyApp (m : List (List Char × List Char)) (k : List Char) : List (List Char) :=
  (m.map (fun kv => if kv.1 = k ∧ kv.1 ≠ [] then splitNl kv.2 else [])).flatten

/- ## Document Tree nodes (external docutils node interface) -/

/-- A docutils document-tree node: tag name, the `names` alias attribute of
section nodes, the node's string content (for `#text` nodes the text
itself, i.e. the value of `str()` on the node), and ordered children. -/
inductive Node : Type where
  | mk (tagname : String) (names : List String) (text : String) (children : List Node) : Node
deriving Repr

/-- The node's tag name. -/
def Node.tagname : Node → String
  | .mk t _ _ _ => t

/-- The `names` attribute of the node. -/
def Node.names : Node → List String
  | .mk _ n _ _ => n

/-- The string content of the node (`str(node)` for text nodes). -/
def Node.text : Node → String
  | .mk _ _ x _ => x

/-- The ordered children of the node. -/
def Node.children : Node → List Node
  | .mk _ _ _ _c => _c

/-- Replace the children of a node. -/
def Node.withChildren : Node → List Node → Node
  | .mk t n x _, c => .mk t n x c

mutual
/-- Structural equality on nodes (used by `list.remove`). -/
def Node.beq : Node → Node → Bool
  | .mk t n x c, .mk t' n' x' c' => t == t' && n == n' && x == x' && beqNodes c c'
/-- Structural equality on child lists. -/
def beqNodes : List Node → List Node → Bool
  | [], [] => true
  | a :: as, b :: bs => Node.beq a b && beqNodes as bs
  | _, _ => false
end

instance : BEq Node := ⟨Node.beq⟩

mutual
def Node.beq_refl : ∀ a : Node, Node.beq a a = true
  | .mk t n x c => by simp [Node.beq, beqNodes_refl c]
def beqNodes_refl : ∀ as : List Node, beqNodes as as = true
  | [] => rfl
  | a :: as => by simp [beqNodes, Node.beq_refl a, beqNodes_refl as]
end

mutual
def Node.eq_of_beq : ∀ {a b : Node}, Node.beq a b = true → a = b
  | .mk t n x c, .mk t' n' x' c', h => by
    simp only [Node.beq, Bool.and_eq_true, beq_iff_eq] at h
    obtain ⟨⟨⟨h1, h2⟩, h3⟩, h4⟩ := h
    subst h1; subst h2; subst h3
    rw [eqNodes_of_beq h4]
def eqNodes_of_beq : ∀ {as bs : List Node}, beqNodes as bs = true → as = bs
  | [], [], _ => rfl
  | a :: as, b :: bs, h => by
    simp only [beqNodes, Bool.and_eq_true] at h
    rw [Node.eq_of_beq h.1, eqNodes_of_beq h.2]
end

instance : LawfulBEq Node where
  eq_of_beq := Node.eq_of_beq
  rfl := Node.beq_refl _

/- ## Contact-Info Extractor (core.py lines 22-44) -/

/-- The fixed contact vocabulary. -/
def CONTACT_INFO_SECTIONS : List String := ["name", "address", "phone", "email", "fax"]

/-- The inner loop over `node['names']` (with `break`): the first lowercase
name of a section node that is in the contact vocabulary. -/
def contactMatch (node : Node) : Option String :=
  if node.tagname = "section" then
    node.names.findSome? (fun n =>
      let nl := pyLower n
      if nl ∈ CONTACT_INFO_SECTIONS then some nl else none)
  else none

/-- Python dict assignment `d[k] = v` (overwrite in place, else append). -/
def dictInsert {α : Type} (d : List (String × α)) (k : String) (v : α) :
    List (String × α) :=
  if hasKey d k then d.map (fun kv => if kv.1 = k then (k, v) else kv)
  else d ++ [(k, v)]

/-- The loop body of `extract_contact_info` over the top-level nodes:
record a matching section under its matched lowercase name in `cidict`
and put the node on the removal list. -/
def ciStep (acc : List (String × Node) × List Node) (node : Node) :
    List (String × Node) × List Node :=
  match contactMatch node with
  | some nl => (dictInsert acc.1 nl node, acc.2 ++ [node])
  | none => acc

/-- `extract_contact_info`: one pass over the top-level nodes collecting
`cidict` and `torem` (see `ciStep`), then `doctree.remove(node)` (remove
the first structurally equal occurrence) for every collected node. -/
def extract_contact_info (doctree : List Node) :
    List (String × Node) × List Node :=
  let scan := doctree.foldl ciStep ([], [])
  (scan.1, scan.2.foldl List.erase doctree)

/- ## `extract_texts` (core.py lines 125-130) -/

mutual
/-- `node.traverse(condition=cond, include_self=False)` with
`cond = n.tagname == '#text' and n.parent.tagname != 'title'`:
all `#text` descendants, in document order, whose parent is not a title. -/
def extract_texts (node : Node) : List Node :=
  match node with
  | .mk ptag _ _ ch => textsUnder ptag ch
/-- The descendants of the children `ch` of a node tagged `ptag`. -/
def textsUnder (ptag : String) : List Node → List Node
  | [] => []
  | c :: cs =>
    (if c.tagname = "#text" ∧ ptag ≠ "title" then [c] else [])
      ++ extract_texts c ++ textsUnder ptag cs
end

/- ## Citation/Contact-Block Formatter: `make_citable` (core.py lines 133-173) -/

/-- Default left column fields. -/
def DEFAULT_CITABLE_LEFT : List String := ["[address]"]

/-- Default right column fields. -/
def DEFAULT_CITABLE_RIGHT : List String := ["phone", "fax", "email"]

/-- Processing of one field name: bracketed names (`startswith('[') and
endswith(']')`) drop the label; otherwise the label is
`italicize(Capitalized-name + ':') + '~'` (`fi[0]` on an empty name raises
IndexError).  The field's value is looked up (KeyError if absent), split
into lines, and the first line receives the label. -/
def fieldLines (italicize : String → String) (cistrdict : List (String × String))
    (fi : String) : Except PyError (List String) :=
  let pr : Except PyError (String × String) :=
    if fi.data.head? = some '[' ∧ fi.data.getLast? = some ']' then
      .ok (String.mk ((fi.data.drop 1).dropLast), "")
    else
      match fi.data with
      | [] => .error (.indexError "string index out of range")
      | c :: rest => .ok (fi, italicize (String.mk (c.toUpper :: rest) ++ ":") ++ "~")
  match pr with
  | .error e => .error e
  | .ok (fi2, pfx) =>
    match lookupD cistrdict fi2 with
    | none => .error (.keyError fi2)
    | some tval =>
      match pySplitLines tval with
      | [] => .ok []
      | h :: t => .ok ((pfx ++ h) :: t)

/-- The loop `for fi in fields: ... lines.extend(tspl)`. -/
def collectLines (italicize : String → String) (cistrdict : List (String × String)) :
    List String → Except PyError (List String)
  | [] => .ok []
  | fi :: fis => do
    let a ← fieldLines italicize cistrdict fi
    let b ← collectLines italicize cistrdict fis
    .ok (a ++ b)

/-- The table-assembly loop: for `i in range(max(len L, len R))` emit
`startrow + L[i] + colsep + R[i] + endrow`, the missing side replaced by
the empty string. -/
def buildTable (startrow colsep endrow : String) (L R : List String) : List String :=
  (List.range (max L.length R.length)).map (fun i =>
    startrow ++ L.getD i "" ++ colsep ++ R.getD i "" ++ endrow)

/-- `make_citable` after the writer tokens have been chosen. -/
def makeCitableWith (italicize : String → String) (startrow endrow colsep : String)
    (cistrdict : List (String × String)) (leftfields rightfields : List String) :
    Except PyError String := do
  let leftlines ← collectLines italicize cistrdict leftfields
  let rightlines ← collectLines italicize cistrdict rightfields
  .ok (pyJoinLines (buildTable startrow colsep endrow leftlines rightlines))

/-- `make_citable` (default field lists are passed explicitly by callers). -/
def make_citable (cistrdict : List (String × String)) (writer_name : String)
    (leftfields rightfields : List String) : Except PyError String :=
  if writer_name = "html" then
    makeCitableWith (fun s => "<i>" ++ s ++ "</i>") "<tr><td>" "</td></tr>" "</td><td>"
      cistrdict leftfields rightfields
  else if writer_name = "latex" then
    makeCitableWith (fun s => "\\textit\x7b" ++ s ++ "\x7d") "" "\\\\" "&"
      cistrdict leftfields rightfields
  else .error (.valueError ("can't make citable for writer " ++ writer_name))

/- ## Special-Settings Applicator (core.py lines 176-223) -/

/-- The reserved per-writer settings keys handled by this core. -/
def SPECIAL_SETTINGS : List (String × List String) :=
  [("latex", ["nobullets", "preitemize", "postsection", "nofootnotespace"]),
   ("html", ["onlydiv"])]

/-- A docutils `raw` node (its `format` attribute is renderer-side and not
represented in the model). -/
def Raw (text : String) : Node := .mk "raw" [] text []

/-- Index of the first `title` child. -/
def findTitleIdx : List Node → Option Nat
  | [] => none
  | c :: cs =>
    if c.tagname = "title" then some 0
    else (findTitleIdx cs).map (fun i => i + 1)

/-- `node.insert(i, x)` on a child list. -/
def insertAt (l : List Node) (i : Nat) (x : Node) : List Node :=
  l.take i ++ x :: l.drop i

/-- `apply_doctree_special_settings`: with `latex_postsection` present,
insert a raw node directly after the title of every top-level section. -/
def apply_doctree_special_settings (doctree : List Node)
    (specialsettings : List (String × String)) : List Node :=
  if hasKey specialsettings "latex_postsection" then
    let txt := (lookupD specialsettings "latex_postsection").getD ""
    doctree.map (fun node =>
      if node.tagname = "section" then
        match findTitleIdx node.children with
        | some i => node.withChildren (insertAt node.children (i + 1) (Raw txt))
        | none => node
      else node)
  else doctree

/-- The HTML body-start marker scanned for by the `onlydiv` pass. -/
def documentDivMark : String := "<div class=\"document\">"

/-- The `html_onlydiv` line loop (core.py lines 212-220): while `divcnt`
is positive retain the line and update the nesting count with the `<div`
and `</div` occurrences of the retained line (the count lives in ℤ, as a
Python int: it may go negative); otherwise start retaining, without the
current line, once a line contains the body-start marker. -/
def onlydivLines : Int → List String → List String
  | _, [] => []
  | divcnt, l :: rest =>
    if divcnt > 0 then
      l :: onlydivLines (divcnt + (countStr l "<div" : Int) - (countStr l "</div" : Int)) rest
    else if containsStr l documentDivMark then
      onlydivLines (divcnt + 1) rest
    else
      onlydivLines divcnt rest

/-- The `html_onlydiv` pass on a whole rendered string. -/
def onlydivStr (s : String) : String := pyJoinLines (onlydivLines 0 (pySplitLines s))

/-- `apply_str_special_settings` (core.py lines 198-223). -/
def apply_str_special_settings (writtenstr : String)
    (specialsettings : List (String × String)) : String :=
  let w := if hasKey specialsettings "latex_nobullets" then
      writtenstr.replace "\\item " "\\item[] " else writtenstr
  let w := if hasKey specialsettings "latex_preitemize" then
      w.replace "\\begin\x7bitemize\x7d"
        ((lookupD specialsettings "latex_preitemize").getD "" ++ "\n\\begin\x7bitemize\x7d")
    else w
  let w := if hasKey specialsettings "latex_nofootnotespace" then
      w.replace " \\DUfootnotemark" "\\DUfootnotemark" else w
  if hasKey specialsettings "html_onlydiv" then onlydivStr w else w

/- ## Orchestrator: `main` (core.py lines 226-312) -/

/-- The `content` argument of `main`: a pre-parsed tree, a readable
stream, or a path string (the duck-typed dispatch probes for `children`
and `read` attributes). -/
inductive PyVal : Type where
  | tree (t : List Node)
  | stream (s : String)
  | str (s : String)

/-- `hasattr(content, 'children')`. -/
def hasattrChildren : PyVal → Bool
  | .tree _ => true
  | _ => false

/-- `hasattr(content, 'read')`. -/
def hasattrRead : PyVal → Bool
  | .stream _ => true
  | _ => false

/-- The external collaborators of `main`: the filesystem, the docutils
parser and renderer, and the Python `str.format` builtin. -/
structure MainEnv : Type where
  files : String → Option String
  publish_doctree : String → List Node
  publish_from_doctree : List Node → Option (List (String × String)) → String
  formatTemplate : String → List (String × String) → Except PyError String

/-- `open(content, 'r')` followed by `.read()`: succeeds on a path naming
an existing file; on a non-string (a doctree) `open` raises TypeError. -/
def pyOpenRead (env : MainEnv) : PyVal → Except PyError String
  | .str p =>
    match env.files p with
    | some s => .ok s
    | none => .error (.ioError ("No such file or directory: " ++ p))
  | _ => .error (.typeError "coercing to Unicode: need string or buffer")

/-- The Parse step of `main` (core.py lines 241-251).  The source reads:
`if hasattr(content,'children'): doctree = content` —
`if hasattr(content,'read'): s = f.read()` — `else: open(content)...`.
The first assignment is dead: the second test is `if`, not `elif`, so a
stream input evaluates the undefined name `f` (NameError) and every
non-stream input, a pre-parsed tree included, reaches the `else` branch
and calls `open` on it. -/
def parsePhase (env : MainEnv) (content : PyVal) : Except PyError (List Node) :=
  if hasattrRead content then .error (.nameError "global name f is not defined")
  else do
    let s ← pyOpenRead env content
    .ok (env.publish_doctree s)

/-- The TypeError message of `'key' in None`. -/
def noneIterMsg : String := "argument of type NoneType is not iterable"

/-- Python `k in stgs` where `stgs` may be `None` (core.py line 258 can
leave it so): membership on `None` raises TypeError. -/
def pyIn (k : String) : Option (List (String × String)) → Except PyError Bool
  | none => .error (.typeError noneIterMsg)
  | some d => .ok (hasKey d k)

/-- Python `stgs.pop(k)` where `stgs` may be `None`. -/
def pyPop (k : String) : Option (List (String × String)) →
    Except PyError (String × Option (List (String × String)))
  | none => .error (.typeError "NoneType object has no attribute pop")
  | some d =>
    match lookupD d k with
    | some v => .ok (v, some (removeKey d k))
    | none => .error (.keyError k)

/-- The special-settings extraction loop of `main` (core.py lines 284-287):
for each reserved key of the writer, pop it from the settings into
`specialsettings` under the key `writer_name + '_' + key`. -/
def popSpecials (writer_name : String) :
    List String → Option (List (String × String)) →
    Except PyError (List (String × String) × Option (List (String × String)))
  | [], stgs => .ok ([], stgs)
  | si :: rest, stgs => do
    let b ← pyIn si stgs
    if b then do
      let (v, stgs') ← pyPop si stgs
      let (acc, stgs'') ← popSpecials writer_name rest stgs'
      .ok ((writer_name ++ "_" ++ si, v) :: acc, stgs'')
    else
      popSpecials writer_name rest stgs

/-- `str(node[0][0])`: the string form of the first child of the node's
first child (IndexError when either list is empty). -/
def firstFirstText (n : Node) : Except PyError String :=
  match n.children.head? with
  | none => .error (.indexError "list index out of range")
  | some c0 =>
    match c0.children.head? with
    | none => .error (.indexError "list index out of range")
    | some c00 => .ok c00.text

/-- The `torem` collection of the section-exclusion step (core.py lines
292-295): every top-level section whose `str(node[0][0])` is listed. -/
def collectExcluded (secs : List String) : List Node → Except PyError (List Node)
  | [] => .ok []
  | n :: rest => do
    let keep ← if n.tagname = "section" then do
        let s ← firstFirstText n
        pure (decide (s ∈ secs))
      else
        pure false
    let r ← collectExcluded secs rest
    .ok (if keep then n :: r else r)

/-- `cistrdict = dict([(k, extract_texts(v)[-1]) for ...])` (core.py line
277): the last text node of each extracted contact section (`[-1]` on an
empty result raises IndexError); text nodes are used as strings. -/
def buildCistr : List (String × Node) → Except PyError (List (String × String))
  | [] => .ok []
  | (k, v) :: rest =>
    match (extract_texts v).getLast? with
    | none => .error (.indexError "list index out of range")
    | some n => do
      let r ← buildCistr rest
      .ok ((k, n.text) :: r)

/-- The orchestrator `main` (core.py lines 226-312).  `writer` is given by
name (the writer-object branch differs only in how `writer_name` is
computed); `fout` output is external I/O and the written string is also
returned, so the model returns it. -/
def main (env : MainEnv) (content : PyVal) (writer_name : String)
    (settingsfileArg : Option String) : Except PyError String := do
  -- Parse (the `if hasattr(content, 'children')` assignment is dead, see parsePhase)
  let doctree ← parsePhase env content
  -- LoadSettings: stgs is None when the settings file does not exist
  let settingsfile := match settingsfileArg with
    | some s => s
    | none => writer_name ++ ".cvsettings"
  let stgs : Option (List (String × String)) ←
    match env.files settingsfile with
    | some txt => do
      let m ← load_settings txt none
      pure (some m)
    | none => pure none
  -- SubstituteContact: template selection (escaped-brace variant doubles
  -- real braces and removes backslash-escaped ones)
  let b1 ← pyIn "contactinfotemplate" stgs
  let tpl ← if b1 then do
      let (v, stgs') ← pyPop "contactinfotemplate" stgs
      pure (some v, stgs')
    else do
      let b2 ← pyIn "contactinfotemplate\\" stgs
      if b2 then do
        let (v, stgs') ← pyPop "contactinfotemplate\\" stgs
        let v := (v.replace "\x7b" "\x7b\x7b").replace "\x7d" "\x7d\x7d"
        let v := (v.replace "\\\x7b" "").replace "\\\x7d" ""
        pure (some v, stgs')
      else
        pure (none, stgs)
  let citempl := tpl.1
  let stgs := tpl.2
  let doctree ← match citempl with
    | none => pure doctree
    | some templ => do
      let ex := extract_contact_info doctree
      let cistrdict ← buildCistr ex.1
      let cistrdict ← if containsStr templ "\x7bcitabledata\x7d" then do
          let c ← make_citable cistrdict writer_name DEFAULT_CITABLE_LEFT
            DEFAULT_CITABLE_RIGHT
          pure (cistrdict ++ [("citabledata", c)])
        else
          pure cistrdict
      let cistr ← env.formatTemplate templ cistrdict
      pure (Raw cistr :: ex.2)
  -- ExtractSpecialSettings
  let sp ← popSpecials writer_name ((lookupD SPECIAL_SETTINGS writer_name).getD []) stgs
  let specialsettings := sp.1
  let stgs := sp.2
  -- ExcludeSections
  let b3 ← pyIn "excludesections" stgs
  let st4 ← if b3 then do
      let (v, stgs') ← pyPop "excludesections" stgs
      let secstoexclude := (pySplitOn v ',').map pyStrip
      let torem ← collectExcluded secstoexclude doctree
      pure (torem.foldl List.erase doctree, stgs')
    else
      pure (doctree, stgs)
  let doctree := st4.1
  let stgs := st4.2
  -- Render and PostProcessString
  let doctree := apply_doctree_special_settings doctree specialsettings
  let outstr := env.publish_from_doctree doctree stgs
  let outstr := apply_str_special_settings outstr specialsettings
  pure outstr

/- ## Concrete fixtures used by the theorems below -/

/-- The worked contact-field example of the spec. -/
def jane : List (String × String) :=
  [("name", "Jane Doe"), ("phone", "555-1234"), ("email", "jane@x.com")]

/-- The exact HTML table `make_citable` produces for the worked example. -/
def htmlJaneOut : String :=
  "<tr><td>Jane Doe</td><td><i>Phone:</i>~555-1234</td></tr>\n" ++
  "<tr><td></td><td><i>Email:</i>~jane@x.com</td></tr>"

/-- The exact LaTeX table `make_citable` produces for the worked example. -/
def latexJaneOut : String :=
  "Jane Doe&\\textit\x7bPhone:\x7d~555-1234\\\\\n&\\textit\x7bEmail:\x7d~jane@x.com\\\\"

/-- The LaTeX table the claim's row format `left & right \\` would produce. -/
def latexJaneClaimed : String :=
  "Jane Doe & \\textit\x7bPhone:\x7d~555-1234 \\\\\n & \\textit\x7bEmail:\x7d~jane@x.com \\\\"

/-- A rendered LaTeX document with content outside the document environment. -/
def latexRendered : String :=
  "\\documentclass\x7barticle\x7d\n\\begin\x7bdocument\x7d\nHello\n\\end\x7bdocument\x7d"

/-- An environment whose renderer produces `latexRendered`, with an existing
(empty) `latex.cvsettings` file and an existing content file `cv.rst`. -/
def envLatex : MainEnv where
  files := fun p =>
    if p = "cv.rst" then some "CV" else if p = "latex.cvsettings" then some "" else none
  publish_doctree := fun _ => []
  publish_from_doctree := fun _ _ => latexRendered
  formatTemplate := fun _ _ => .ok ""

/-- An environment with a readable content file but no settings file. -/
def envNoSettings : MainEnv where
  files := fun p => if p = "cv.rst" then some "CV" else none
  publish_doctree := fun _ => []
  publish_from_doctree := fun _ _ => latexRendered
  formatTemplate := fun _ _ => .ok ""

/-- A rendered HTML document with a preamble, a body `div` containing one
nested `div`, and a postamble. -/
def htmlRendered : String :=
  "<html>\n<div class=\"document\">\n<p>hi</p>\n<div class=\"x\">\n<p>in</p>\n" ++
  "</div>\n<p>out</p>\n</div>\n</html>"

/-- The lines of `htmlRendered` retained by the `onlydiv` pass: from after
the body-start line through the line whose close returns the count to zero. -/
def htmlBodyOnly : String :=
  "<p>hi</p>\n<div class=\"x\">\n<p>in</p>\n</div>\n<p>out</p>\n</div>"

/- ## C4: the Parse step of `main` -/

/-- C4: the claim states that `main` obtains a Document Tree from a path, a
readable stream (read and parsed), or a pre-parsed tree (passed through).
The code is broken for two of the three kinds: a stream input evaluates the
undefined name `f` and raises NameError, and a pre-parsed tree falls
through the missing `elif` into the `else` branch, which calls `open` on
the tree and raises TypeError.  A path input works. -/
theorem main_duck_typing_crash :
    ∀ (env : MainEnv) (t : List Node) (s w : String) (sf : Option String),
      main env (.tree t) w sf =
        .error (.typeError "coercing to Unicode: need string or buffer") ∧
      main env (.stream s) w sf =
        .error (.nameError "global name f is not defined") := by
  intro env t s w sf
  exact ⟨rfl, rfl⟩

/- ## C1: missing settings file aborts `main` -/

/-- C1: the claim states that with the resolved settings file absent, the
pipeline proceeds with an empty Settings Map and completes.  In the code,
`stgs` is set to `None` when the file does not exist, and the very next
settings-driven step evaluates `'contactinfotemplate' in stgs`, which
raises TypeError on `None`: the run aborts instead of proceeding. -/
theorem main_missing_settings_aborts (env : MainEnv) (p w t : String)
    (hp : env.files p = some t)
    (hs : env.files (w ++ ".cvsettings") = none) :
    main env (.str p) w none = .error (.typeError noneIterMsg) := by
  simp only [main, parsePhase, hasattrRead, pyOpenRead, hp, hs, pyIn,
    Bind.bind, Except.bind, if_neg Bool.false_ne_true, pure, Except.pure]

/-- Witness for C1's theorem at a concrete environment. -/
theorem main_missing_settings_aborts_witness :
    envNoSettings.files "cv.rst" = some "CV" ∧
    envNoSettings.files ("latex" ++ ".cvsettings") = none ∧
    main envNoSettings (.str "cv.rst") "latex" none = .error (.typeError noneIterMsg) :=
  ⟨rfl, rfl, main_missing_settings_aborts envNoSettings "cv.rst" "latex" "CV" rfl rfl⟩

/- ## C5: comment stripping and the dead unescape -/

/-- C5: the claim states that with marker `#`, `abc #comment` parses as
content `abc ` and `abc \#notcomment` parses as content `abc #notcomment`.
The first half holds (the trailing space survives while a later line keeps
the body from being right-trimmed).  The second half does not: the source
computes `l.replace(esccomment, comment)` and discards the result, so the
backslash is retained and the content is `abc \#notcomment`. -/
theorem load_settings_escape_retained :
    load_settings "[s]\nabc #comment\nnext" (some '#') = .ok [("s", "abc \nnext")] ∧
    load_settings "[s]\nabc \\#notcomment" (some '#') =
      .ok [("s", "abc \\#notcomment")] :=
  ⟨rfl, rfl⟩

/- ## C2: the `onlydiv` pass and missing delimiters -/

/-- C2 counterexample: on a rendered string that does not contain the
body-start delimiter, the `onlydiv` pass silently returns the empty string;
no error of any kind is raised (the function is total and error-free). -/
theorem onlydiv_silent_empty_cex :
    apply_str_special_settings "hello" [("html_onlydiv", "")] = "" ∧
    containsStr "hello" documentDivMark = false :=
  ⟨rfl, rfl⟩

/-- Helper: with no line containing the body-start marker, the `onlydiv`
line loop retains nothing. -/
theorem onlydivLines_all_missing (ls : List String)
    (h : ∀ l ∈ ls, containsStr l documentDivMark = false) :
    onlydivLines 0 ls = [] := by
  induction ls with
  | nil => rfl
  | cons l rest ih =>
    have hl := h l (by simp)
    simp only [onlydivLines, hl]
    norm_num
    exact ih (fun x hx => h x (by simp [hx]))

/-- C2 amended: when the body-start delimiter is absent from every line of
the rendered string, the `onlydiv` pass silently returns the empty string
(all lines are dropped); no error is raised. -/
theorem onlydiv_missing_marker_yields_empty (s v : String)
    (h : ∀ l ∈ pySplitLines s, containsStr l documentDivMark = false) :
    apply_str_special_settings s [("html_onlydiv", v)] = "" := by
  have h1 : hasKey [("html_onlydiv", v)] "latex_nobullets" = false := rfl
  have h2 : hasKey [("html_onlydiv", v)] "latex_preitemize" = false := rfl
  have h3 : hasKey [("html_onlydiv", v)] "latex_nofootnotespace" = false := rfl
  have h4 : hasKey [("html_onlydiv", v)] "html_onlydiv" = true := rfl
  simp only [apply_str_special_settings, h1, h2, h3, h4, if_true, if_false,
    Bool.false_eq_true, onlydivStr, onlydivLines_all_missing _ h]
  rfl

/-- Witness for C2's amended theorem at a concrete input. -/
theorem onlydiv_missing_marker_yields_empty_witness :
    (∀ l ∈ pySplitLines "hello\nworld", containsStr l documentDivMark = false) ∧
    apply_str_special_settings "hello\nworld" [("html_onlydiv", "x")] = "" :=
  ⟨by decide, onlydiv_missing_marker_yields_empty "hello\nworld" "x" (by decide)⟩

/- ## C3: body extraction per writer -/

/-- C3 counterexample: for the LaTeX writer the pipeline performs no
document-environment stripping at all: with an existing (empty) settings
file the pipeline returns the renderer's output unchanged, preamble
included — the returned string still contains `\documentclass`, which
lies outside the document environment. -/
theorem latex_no_body_extraction_cex :
    main envLatex (.str "cv.rst") "latex" none = .ok latexRendered ∧
    containsStr latexRendered "\\documentclass" = true :=
  ⟨rfl, rfl⟩

/-- C3 amended: the string post-processing performs no body extraction for
the LaTeX writer (with no special settings the rendered string is returned
unchanged); for the HTML writer the rendered string is reduced to the
document-body `div` only when the `onlydiv` setting is present, in which
case the lines strictly after the body-start line are retained through the
nesting-aware close. -/
theorem post_processing_body_extraction (s v : String) :
    apply_str_special_settings s [] = s ∧
    apply_str_special_settings s [("html_onlydiv", v)] = onlydivStr s ∧
    onlydivStr htmlRendered = htmlBodyOnly := by
  refine ⟨rfl, ?_, rfl⟩
  have h1 : hasKey [("html_onlydiv", v)] "latex_nobullets" = false := rfl
  have h2 : hasKey [("html_onlydiv", v)] "latex_preitemize" = false := rfl
  have h3 : hasKey [("html_onlydiv", v)] "latex_nofootnotespace" = false := rfl
  have h4 : hasKey [("html_onlydiv", v)] "html_onlydiv" = true := rfl
  simp only [apply_str_special_settings, h1, h2, h3, h4, if_true, if_false,
    Bool.false_eq_true]

/- ## C6: `make_citable` -/

/-- C6 counterexample: the LaTeX rows of `make_citable` are emitted as
`left&right\\` — the worked example produces `latexJaneOut`, which differs
from the claim's `left & right \\` row format (no spaces appear around the
column separator or before the row terminator). -/
theorem make_citable_latex_row_format_cex :
    make_citable jane "latex" ["[name]"] ["phone", "email"] = .ok latexJaneOut ∧
    latexJaneOut ≠ latexJaneClaimed ∧
    containsStr latexJaneOut " & " = false :=
  ⟨rfl, by decide, rfl⟩

/-- C6 amended: the table loop zip-aligns the left and right column lines
by index and pads the shorter column with empty cells; each row is
`startrow ++ left ++ colsep ++ right ++ endrow`.  For HTML the worked
example yields exactly the two claimed rows (row 1 with an empty left
cell `<td></td>`); for LaTeX each row is `left&right\\` with no spaces. -/
theorem make_citable_zip_align (sr cs er : String) (L R : List String) (i : Nat)
    (h : i < max L.length R.length) :
    (buildTable sr cs er L R).length = max L.length R.length ∧
    (buildTable sr cs er L R).get? i =
      some (sr ++ L.getD i "" ++ cs ++ R.getD i "" ++ er) ∧
    make_citable jane "html" ["[name]"] ["phone", "email"] = .ok htmlJaneOut ∧
    make_citable jane "latex" ["[name]"] ["phone", "email"] = .ok latexJaneOut := by
  refine ⟨?_, ?_, rfl, rfl⟩
  · simp [buildTable]
  · rw [buildTable, List.get?_eq_getElem?, List.getElem?_map, List.getElem?_range h]
    rfl

/-- Witness for C6's amended theorem at a concrete padded row. -/
theorem make_citable_zip_align_witness :
    1 < max (["a"].length) (["b", "c"].length) ∧
    (buildTable "<tr><td>" "</td><td>" "</td></tr>" ["a"] ["b", "c"]).get? 1 =
      some ("<tr><td>" ++ (["a"].getD 1 "") ++ "</td><td>" ++
        (["b", "c"].getD 1 "") ++ "</td></tr>") :=
  ⟨by decide,
   (make_citable_zip_align "<tr><td>" "</td><td>" "</td></tr>" ["a"] ["b", "c"] 1
     (by decide)).2.1⟩

/- ## C8: idempotence of `extract_contact_info` -/

/-- A node the contact scan does not match leaves the accumulator alone. -/
theorem ciStep_none (acc : List (String × Node) × List Node) (node : Node)
    (h : contactMatch node = none) : ciStep acc node = acc := by
  simp [ciStep, h]

/-- A scan over nodes none of which match is the identity. -/
theorem ci_scan_of_none (l : List Node) (acc : List (String × Node) × List Node)
    (h : ∀ nd ∈ l, contactMatch nd = none) : l.foldl ciStep acc = acc := by
  induction l generalizing acc with
  | nil => rfl
  | cons nd rest ih =>
    rw [List.foldl_cons, ciStep_none acc nd (h nd (by simp))]
    exact ih acc (fun x hx => h x (by simp [hx]))

/-- The removal list collected by the scan is exactly the matching nodes. -/
theorem ci_scan_snd (l : List Node) (acc : List (String × Node) × List Node) :
    (l.foldl ciStep acc).2 =
      acc.2 ++ l.filter (fun nd => (contactMatch nd).isSome) := by
  induction l generalizing acc with
  | nil => simp
  | cons nd rest ih =>
    rw [List.foldl_cons, ih]
    cases hm : contactMatch nd with
    | none => simp [ciStep, hm]
    | some nl => simp [ciStep, hm]

/-- Erasing elements that are all different from the head leaves the head. -/
theorem foldl_erase_cons {α : Type} [BEq α] [LawfulBEq α] (a : α) (t xs : List α)
    (h : ∀ x ∈ xs, x ≠ a) :
    xs.foldl List.erase (a :: t) = a :: xs.foldl List.erase t := by
  induction xs generalizing t with
  | nil => rfl
  | cons x xs ih =>
    have hx : (a == x) = false := by
      have : a ≠ x := fun e => h x (by simp) e.symm
      simpa using this
    rw [List.foldl_cons, List.foldl_cons, List.erase_cons, hx]
    exact ih (t.erase x) (fun y hy => h y (by simp [hy]))

/-- Removing (by first occurrence) every element of `l.filter p` from `l`
leaves exactly the elements failing `p` — the effect of the
collect-then-`list.remove` pattern of the source. -/
theorem foldl_erase_filter {α : Type} [BEq α] [LawfulBEq α] (p : α → Bool) (l : List α) :
    (l.filter p).foldl List.erase l = l.filter (fun a => !p a) := by
  induction l with
  | nil => rfl
  | cons a t ih =>
    cases hp : p a with
    | true =>
      rw [List.filter_cons_of_pos hp, List.foldl_cons, List.erase_cons_head,
        ih, List.filter_cons_of_neg (by simp [hp])]
    | false =>
      rw [List.filter_cons_of_neg (by simp [hp]),
        foldl_erase_cons a t _ (fun x hx e => by
          have := (List.mem_filter.mp hx).2
          rw [e, hp] at this
          exact Bool.false_ne_true this),
        ih, List.filter_cons_of_pos (by simp [hp])]

/-- The tree produced by `extract_contact_info` is the non-matching nodes. -/
theorem extract_contact_info_snd (doctree : List Node) :
    (extract_contact_info doctree).2 =
      doctree.filter (fun nd => !(contactMatch nd).isSome) := by
  have hsnd : (doctree.foldl ciStep ([], [])).2 =
      doctree.filter (fun nd => (contactMatch nd).isSome) := by
    simpa using ci_scan_snd doctree ([], [])
  simp only [extract_contact_info, hsnd]
  exact foldl_erase_filter _ doctree

/-- C8: contact extraction is idempotent on the removed-node set.  After
one run removes every top-level section whose name set meets the contact
vocabulary, a second run on the mutated tree returns an empty dictionary
and removes nothing. -/
theorem extract_contact_info_idempotent (doctree : List Node) :
    (extract_contact_info (extract_contact_info doctree).2).1 = [] ∧
    (extract_contact_info (extract_contact_info doctree).2).2 =
      (extract_contact_info doctree).2 := by
  have hnone : ∀ nd ∈ (extract_contact_info doctree).2, contactMatch nd = none := by
    rw [extract_contact_info_snd]
    intro nd hnd
    have h2 := (List.mem_filter.mp hnd).2
    cases hm : contactMatch nd with
    | none => rfl
    | some nl => rw [hm] at h2; simp at h2
  set t1 := (extract_contact_info doctree).2 with ht1
  have hscan : t1.foldl ciStep ([], []) = ([], []) :=
    ci_scan_of_none _ _ hnone
  constructor
  · show (extract_contact_info t1).1 = []
    simp only [extract_contact_info, hscan]
  · show (extract_contact_info t1).2 = t1
    simp only [extract_contact_info, hscan]
    rfl

/- ## Parser loop lemmas (used by C9, C10 and C7) -/

/-- The only error the line loop raises is the header ValueError. -/
theorem stepLine_error_shape (c : Option Char) (st : PState) (l : List Char)
    (e : PyError) (h : stepLine c st l = .error e) : ∃ msg, e = .valueError msg := by
  simp only [stepLine] at h
  split at h
  · exact absurd h (by simp)
  · split at h
    · split at h <;> exact absurd h (by simp)
    · split at h
      · exact ⟨_, (Except.error.injEq _ _).mp h.symm⟩
      · exact absurd h (by simp)

/-- A line whose processed form matches the header pattern with non-blank
trailing content makes the loop raise, whatever the current state. -/
theorem stepLine_header_trailing (c : Option Char) (st : PState) (l l' n t : List Char)
    (hc : commentProcess c l = some l') (hm : markerMatch l' = some (n, t))
    (ht : stripLC t ≠ []) : stepLine c st l = .error (headerErr l') := by
  simp only [stepLine, hc, hm, if_pos ht]

/-- Any list of lines containing a header-with-trailing line makes the
loop end in a ValueError, from any start state. -/
theorem runLines_error_of_bad_line (c : Option Char) (ls1 ls2 : List (List Char))
    (l l' n t : List Char) (hc : commentProcess c l = some l')
    (hm : markerMatch l' = some (n, t)) (ht : stripLC t ≠ []) :
    ∀ st, ∃ msg, runLines c st (ls1 ++ l :: ls2) = .error (.valueError msg) := by
  induction ls1 with
  | nil =>
    intro st
    refine ⟨"Content had a line that looks like a section header, " ++
      "but with extra content:" ++ String.mk l', ?_⟩
    rw [List.nil_append]
    simp only [runLines, stepLine_header_trailing c st l l' n t hc hm ht, headerErr]
  | cons a rest ih =>
    intro st
    rw [List.cons_append]
    cases hse : stepLine c st a with
    | error e =>
      obtain ⟨m, hm'⟩ := stepLine_error_shape _ _ _ _ hse
      exact ⟨m, by simp only [runLines, hse, hm']⟩
    | ok st' =>
      obtain ⟨m, hm'⟩ := ih st'
      exact ⟨m, by simp only [runLines, hse, hm']⟩

/-- Splitting the line loop over an append. -/
theorem runLines_append (c : Option Char) (st : PState) (xs ys : List (List Char)) :
    runLines c st (xs ++ ys) =
      match runLines c st xs with
      | .error e => .error e
      | .ok st' => runLines c st' ys := by
  induction xs generalizing st with
  | nil => rfl
  | cons a xs ih =>
    rw [List.cons_append]
    simp only [runLines]
    cases hse : stepLine c st a with
    | error e => rfl
    | ok st' => exact ih st'

/-- Non-header lines are discarded while `insection` is falsy. -/
theorem runLines_skip (ls : List (List Char)) (st : PState)
    (h : ∀ l ∈ ls, markerMatch l = none) (ht : truthy st.ins = false) :
    runLines none st ls = .ok st := by
  induction ls with
  | nil => rfl
  | cons l rest ih =>
    have hstep : stepLine none st l = .ok st := by
      simp only [stepLine, commentProcess, h l (by simp), ht]
      simp
    simp only [runLines, hstep]
    exact ih (fun x hx => h x (by simp [hx]))

/-- Non-header lines are appended to the open (truthy) section. -/
theorem runLines_acc (ls : List (List Char)) (st : PState) (k : List Char)
    (h : ∀ l ∈ ls, markerMatch l = none) (hins : st.ins = some k) (hk : k ≠ []) :
    runLines none st ls =
      .ok { st with sec := ls.foldl (fun s l => appendSec s k l) st.sec } := by
  induction ls generalizing st with
  | nil => rfl
  | cons l rest ih =>
    have htr : truthy (some k) = true := by
      cases k with
      | nil => exact absurd rfl hk
      | cons a t => rfl
    have hstep : stepLine none st l = .ok { st with sec := appendSec st.sec k l } := by
      simp only [stepLine, commentProcess, h l (by simp), hins, htr, if_true,
        Option.getD_some]
    simp only [runLines, hstep]
    rw [ih { st with sec := appendSec st.sec k l } (fun x hx => h x (by simp [hx]))
      (by simp [hins]) ]
    rfl

/-- `getSec` after an append at the same key. -/
theorem getSec_appendSec_self (s : List (List Char × List (List Char)))
    (k l : List Char) : getSec (appendSec s k l) k = getSec s k ++ [l] := by
  induction s with
  | nil => simp [appendSec, getSec]
  | cons kv rest ih =>
    obtain ⟨k', v⟩ := kv
    by_cases hk : k' = k
    · simp [appendSec, getSec, hk]
    · simp [appendSec, getSec, hk, ih]

/-- `getSec` after an append at a different key. -/
theorem getSec_appendSec_ne (s : List (List Char × List (List Char)))
    (k k2 l : List Char) (hne : k2 ≠ k) :
    getSec (appendSec s k l) k2 = getSec s k2 := by
  have hkk : ¬k = k2 := fun h => hne h.symm
  induction s with
  | nil => simp only [appendSec, getSec, if_neg hkk]
  | cons kv rest ih =>
    obtain ⟨k', v⟩ := kv
    simp only [appendSec, getSec]
    by_cases hk : k' = k
    · have h2 : ¬k' = k2 := by rw [hk]; exact hkk
      rw [if_pos hk]
      simp only [getSec, if_neg h2]
    · rw [if_neg hk]
      by_cases hk2 : k' = k2
      · simp only [getSec, if_pos hk2]
      · simp only [getSec, if_neg hk2, ih]

/-- `getSec` after appending a whole line list at the same key. -/
theorem getSec_foldl_self (ls : List (List Char))
    (s : List (List Char × List (List Char))) (k : List Char) :
    getSec (ls.foldl (fun s l => appendSec s k l) s) k = getSec s k ++ ls := by
  induction ls generalizing s with
  | nil => simp
  | cons l rest ih =>
    rw [List.foldl_cons, ih, getSec_appendSec_self]
    simp

/-- `getSec` at another key after appending a line list. -/
theorem getSec_foldl_ne (ls : List (List Char))
    (s : List (List Char × List (List Char))) (k k2 : List Char) (hne : k2 ≠ k) :
    getSec (ls.foldl (fun s l => appendSec s k l) s) k2 = getSec s k2 := by
  induction ls generalizing s with
  | nil => rfl
  | cons l rest ih => rw [List.foldl_cons, ih, getSec_appendSec_ne s k k2 l hne]

/- ## C9: header lines with trailing content -/

/-- C9: a line whose processed form matches the header pattern with
non-blank trailing content always aborts the parse with the header
ValueError naming a line, wherever the line sits in the input — before
any header or inside an open section alike (an earlier offending line
raises the same error form first). -/
theorem header_trailing_always_errors (c : Option Char) (ls1 ls2 : List (List Char))
    (l l' n t : List Char) (hc : commentProcess c l = some l')
    (hm : markerMatch l' = some (n, t)) (ht : stripLC t ≠ []) :
    ∃ msg, parseLinesTop c (ls1 ++ l :: ls2) = .error (.valueError msg) := by
  obtain ⟨m, hr⟩ := runLines_error_of_bad_line c ls1 ls2 l l' n t hc hm ht initPState
  refine ⟨m, ?_⟩
  simp only [parseLinesTop, hr]
  rfl

/-- Witness for C9 at the spec's example line `[sec]extra`, placed after a
content line and before another line. -/
theorem header_trailing_always_errors_witness :
    commentProcess none "[sec]extra".data = some "[sec]extra".data ∧
    markerMatch "[sec]extra".data = some ("sec".data, "extra".data) ∧
    stripLC "extra".data ≠ [] ∧
    (∃ msg, parseLinesTop none (["before".data] ++ "[sec]extra".data :: ["after".data]) =
      .error (.valueError msg)) :=
  ⟨rfl, by decide, by decide,
   header_trailing_always_errors none ["before".data] ["after".data]
     "[sec]extra".data "[sec]extra".data "sec".data "extra".data rfl (by decide)
     (by decide)⟩

/- ## C10: the empty-name section -/

/-- C10: a `[]` header opens a section named by the empty string;
`insection` is then falsy, so every following non-header line is discarded
until a header with a non-empty name appears, and the empty-string key
still appears in the result, with an empty body. -/
theorem empty_name_section (ls bs : List (List Char))
    (hls : ∀ l ∈ ls, markerMatch l = none) (hbs : ∀ l ∈ bs, markerMatch l = none) :
    parseLinesTop none (['[', ']'] :: ls) = .ok [([], [])] ∧
    parseLinesTop none (['[', ']'] :: (ls ++ ['[', 'a', ']'] :: bs)) =
      .ok [([], []), (['a'], rstripLC (joinNl bs))] := by
  have hhd : ∀ ls' : List (List Char),
      runLines none initPState (['[', ']'] :: ls') =
        runLines none ⟨[], [[]], some []⟩ ls' := fun _ => rfl
  constructor
  · rw [parseLinesTop, hhd ls,
      runLines_skip ls ⟨[], [[]], some []⟩ hls rfl]
    rfl
  · rw [parseLinesTop, hhd (ls ++ ['[', 'a', ']'] :: bs), runLines_append,
      runLines_skip ls ⟨[], [[]], some []⟩ hls rfl]
    show Except.map finishMap
      (runLines none ⟨[], [[]], some []⟩ (['[', 'a', ']'] :: bs)) = _
    have hhd2 : runLines none (⟨[], [[]], some []⟩ : PState) (['[', 'a', ']'] :: bs) =
        runLines none ⟨[], [[], ['a']], some ['a']⟩ bs := rfl
    rw [hhd2, runLines_acc bs ⟨[], [[], ['a']], some ['a']⟩ ['a'] hbs rfl (by decide)]
    show Except.ok (finishMap _) = _
    rw [finishMap]
    have hd : dedupFirst [([] : List Char), ['a']] = [[], ['a']] := rfl
    rw [hd]
    simp only [List.map_cons, List.map_nil]
    rw [getSec_foldl_ne bs [] ['a'] [] (by decide), getSec_foldl_self]
    rfl

/-- Witness for C10 at concrete discarded and accumulated lines. -/
theorem empty_name_section_witness :
    (∀ l ∈ [['x', 'y']], markerMatch l = none) ∧
    (∀ l ∈ [['b']], markerMatch l = none) ∧
    parseLinesTop none (['[', ']'] :: ([['x', 'y']] ++ ['[', 'a', ']'] :: [['b']])) =
      .ok [([], []), (['a'], rstripLC (joinNl [['b']]))] :=
  ⟨by decide, by decide,
   (empty_name_section [['x', 'y']] [['b']] (by decide) (by decide)).2⟩

/- ## Split/join lemmas (used by C7) -/

/-- Unfolding equation for `splitCh` on a cons. -/
theorem splitCh_cons (sep c : Char) (rest : List Char) :
    splitCh sep (c :: rest) =
      if c = sep then [] :: splitCh sep rest
      else
        match splitCh sep rest with
        | [] => [[c]]
        | h :: t => (c :: h) :: t := rfl

/-- Unfolding equation for `scanName` on a cons. -/
theorem scanName_cons (x : Char) (xs : List Char) :
    scanName (x :: xs) =
      if x = ']' then some ([], xs)
      else if x = '\n' then none
      else
        match scanName xs with
        | some (n, r) => some (x :: n, r)
        | none => none := rfl

/-- Unfolding equation for `markerMatch` on a cons. -/
theorem markerMatch_cons (c : Char) (rest : List Char) :
    markerMatch (c :: rest) =
      if c = '[' then
        match scanName rest with
        | some (n, r) => some (n, r.takeWhile (fun ch => ch ≠ '\n'))
        | none => none
      else none := rfl

/-- Unfolding equation for `scanCom` on a cons. -/
theorem scanCom_cons (mark : Char) (prev : Option Char) (x : Char) (xs : List Char) :
    scanCom mark prev (x :: xs) =
      if x = mark ∧ prev ≠ some '\\' then some []
      else if x = '\n' then none
      else
        match scanCom mark (some x) xs with
        | some g => some (x :: g)
        | none => none := rfl

/-- Splitting never yields the empty list of fragments. -/
theorem splitCh_ne_nil (sep : Char) (l : List Char) : splitCh sep l ≠ [] := by
  cases l with
  | nil => simp [splitCh]
  | cons c rest =>
    simp only [splitCh]
    by_cases h : c = sep
    · simp [h]
    · rw [if_neg h]
      cases hs : splitCh sep rest <;> simp

/-- No fragment of a split contains the separator. -/
theorem mem_splitCh_no_sep (sep : Char) (l : List Char) :
    ∀ a ∈ splitCh sep l, sep ∉ a := by
  induction l with
  | nil =>
    intro a ha
    simp only [splitCh, List.mem_singleton] at ha
    simp [ha]
  | cons c rest ih =>
    intro a ha
    simp only [splitCh] at ha
    by_cases h : c = sep
    · rw [if_pos h] at ha
      rcases List.mem_cons.mp ha with h1 | h1
      · simp [h1]
      · exact ih a h1
    · rw [if_neg h] at ha
      cases hs : splitCh sep rest with
      | nil => exact absurd hs (splitCh_ne_nil sep rest)
      | cons h0 t0 =>
        rw [hs] at ha
        rcases List.mem_cons.mp ha with h1 | h1
        · subst h1
          intro hmem
          rcases List.mem_cons.mp hmem with h2 | h2
          · exact h h2.symm
          · exact ih h0 (by rw [hs]; exact List.mem_cons_self _ _) h2
        · exact ih a (by rw [hs]; exact List.mem_cons_of_mem _ h1)

/-- Joining a nonempty list of fragments. -/
theorem joinCh_cons (sep : Char) (l : List Char) (ls : List (List Char))
    (h : ls ≠ []) : joinCh sep (l :: ls) = l ++ sep :: joinCh sep ls := by
  cases ls with
  | nil => exact absurd rfl h
  | cons a t => rfl

/-- Joining the fragments of a split restores the original list. -/
theorem joinCh_splitCh (sep : Char) (l : List Char) :
    joinCh sep (splitCh sep l) = l := by
  induction l with
  | nil => rfl
  | cons c rest ih =>
    simp only [splitCh]
    by_cases h : c = sep
    · rw [if_pos h, joinCh_cons sep [] _ (splitCh_ne_nil sep rest), ih,
        List.nil_append, h]
    · rw [if_neg h]
      cases hs : splitCh sep rest with
      | nil => exact absurd hs (splitCh_ne_nil sep rest)
      | cons h0 t0 =>
        rw [hs] at ih
        cases t0 with
        | nil =>
          show c :: h0 = c :: rest
          rw [show joinCh sep [h0] = h0 from rfl] at ih
          rw [ih]
        | cons t1 ts =>
          rw [joinCh_cons sep (c :: h0) (t1 :: ts) (by simp)]
          rw [joinCh_cons sep h0 (t1 :: ts) (by simp)] at ih
          rw [List.cons_append, ih]

/-- Splitting distributes over an explicit separator occurrence. -/
theorem splitCh_append_sep (sep : Char) (x y : List Char) :
    splitCh sep (x ++ sep :: y) = splitCh sep x ++ splitCh sep y := by
  induction x with
  | nil => simp [splitCh]
  | cons c rest ih =>
    rw [List.cons_append, splitCh_cons, splitCh_cons]
    by_cases h : c = sep
    · rw [if_pos h, if_pos h, ih, List.cons_append]
    · rw [if_neg h, if_neg h, ih]
      cases hs : splitCh sep rest with
      | nil => exact absurd hs (splitCh_ne_nil sep rest)
      | cons h0 t0 => simp [hs]

/-- A list free of the separator splits into itself. -/
theorem splitCh_no_sep (sep : Char) (l : List Char) (h : sep ∉ l) :
    splitCh sep l = [l] := by
  induction l with
  | nil => rfl
  | cons c rest ih =>
    have h1 : ¬c = sep := fun e => h (by simp [e])
    have h2 : sep ∉ rest := fun e => h (by simp [e])
    simp only [splitCh, if_neg h1, ih h2]

/-- Splitting the join of separator-free fragments restores them. -/
theorem splitCh_joinCh (sep : Char) (ls : List (List Char))
    (h : ∀ a ∈ ls, sep ∉ a) (hne : ls ≠ []) :
    splitCh sep (joinCh sep ls) = ls := by
  induction ls with
  | nil => exact absurd rfl hne
  | cons a t ih =>
    cases t with
    | nil => exact splitCh_no_sep sep a (h a (by simp))
    | cons b ts =>
      rw [joinCh_cons sep a _ (by simp), splitCh_append_sep,
        splitCh_no_sep sep a (h a (by simp)),
        ih (fun x hx => h x (by simp [hx])) (by simp)]
      rfl

/-- Splitting an append: the first fragments of `x` survive, its last one
is glued to the first fragment of the remainder. -/
theorem splitCh_append (sep : Char) (x r h0 : List Char) (t0 : List (List Char))
    (hr : splitCh sep r = h0 :: t0) :
    ∃ xs xl, splitCh sep x = xs ++ [xl] ∧
      splitCh sep (x ++ r) = xs ++ (xl ++ h0) :: t0 := by
  induction x with
  | nil => exact ⟨[], [], rfl, by simpa using hr⟩
  | cons c rest ih =>
    obtain ⟨xs, xl, h1, h2⟩ := ih
    by_cases h : c = sep
    · refine ⟨[] :: xs, xl, ?_, ?_⟩
      · rw [splitCh_cons, if_pos h, h1, List.cons_append]
      · rw [List.cons_append, splitCh_cons, if_pos h, h2, List.cons_append]
    · cases xs with
      | nil =>
        rw [List.nil_append] at h1 h2
        refine ⟨[], c :: xl, ?_, ?_⟩
        · rw [splitCh_cons, if_neg h]
          simp only [h1]
          rfl
        · rw [List.cons_append, splitCh_cons, if_neg h]
          simp only [h2]
          rfl
      | cons x0 xs' =>
        rw [List.cons_append] at h1 h2
        refine ⟨(c :: x0) :: xs', xl, ?_, ?_⟩
        · rw [splitCh_cons, if_neg h]
          simp only [h1]
          rfl
        · rw [List.cons_append, splitCh_cons, if_neg h]
          simp only [h2]
          rfl

/-- Every fragment of a split of an initial part of a list extends to a
fragment of the split of the full list. -/
theorem mem_splitCh_pref (sep : Char) (x r a : List Char)
    (ha : a ∈ splitCh sep x) :
    ∃ b ∈ splitCh sep (x ++ r), ∃ q, a ++ q = b := by
  cases hr : splitCh sep r with
  | nil => exact absurd hr (splitCh_ne_nil sep r)
  | cons h0 t0 =>
    obtain ⟨xs, xl, h1, h2⟩ := splitCh_append sep x r h0 t0 hr
    rw [h1] at ha
    rcases List.mem_append.mp ha with h3 | h3
    · exact ⟨a, by rw [h2]; exact List.mem_append_left _ h3, [], by simp⟩
    · have hxl : a = xl := by simpa using h3
      subst hxl
      exact ⟨a ++ h0, by rw [h2]; simp, h0, rfl⟩

/- ## Right-trim lemmas -/

/-- `dropWhile` leaves a final segment of the list. -/
theorem dropWhile_suffix_exists {α : Type} (p : α → Bool) (l : List α) :
    ∃ t, t ++ l.dropWhile p = l := by
  induction l with
  | nil => exact ⟨[], rfl⟩
  | cons a t ih =>
    by_cases h : p a
    · obtain ⟨q, hq⟩ := ih
      exact ⟨a :: q, by simp [List.dropWhile_cons, h, hq]⟩
    · exact ⟨[], by simp [List.dropWhile_cons, h]⟩

/-- `rstrip` leaves an initial part of the list. -/
theorem rstripLC_pref (l : List Char) : ∃ q, rstripLC l ++ q = l := by
  obtain ⟨t, ht⟩ := dropWhile_suffix_exists pySpace l.reverse
  refine ⟨t.reverse, ?_⟩
  rw [rstripLC, ← List.reverse_append, ht, List.reverse_reverse]

/-- `dropWhile` is idempotent. -/
theorem dropWhile_idem {α : Type} (p : α → Bool) (l : List α) :
    (l.dropWhile p).dropWhile p = l.dropWhile p := by
  induction l with
  | nil => rfl
  | cons a t ih =>
    by_cases h : p a
    · simp [List.dropWhile_cons, h, ih]
    · simp [List.dropWhile_cons, h]

/-- `rstrip` is idempotent. -/
theorem rstripLC_idem (l : List Char) : rstripLC (rstripLC l) = rstripLC l := by
  rw [rstripLC, rstripLC, List.reverse_reverse, dropWhile_idem]

/-- Membership transfers from an initial part to the full list. -/
theorem mem_of_pref {α : Type} {a b : List α} {c : α} (h : ∃ q, a ++ q = b)
    (hc : c ∈ a) : c ∈ b := by
  obtain ⟨q, hq⟩ := h
  rw [← hq]
  exact List.mem_append_left _ hc

/- ## Header-pattern lemmas -/

/-- A failed name scan also fails on every initial part. -/
theorem scanName_none_of_pref (r r' : List Char) (h : scanName r = none)
    (hp : ∃ q, r' ++ q = r) : scanName r' = none := by
  induction r' generalizing r with
  | nil => rfl
  | cons x xs ih =>
    obtain ⟨q, hq⟩ := hp
    subst hq
    rw [List.cons_append, scanName_cons] at h
    rw [scanName_cons]
    by_cases h1 : x = ']'
    · rw [if_pos h1] at h
      exact absurd h (by simp)
    · rw [if_neg h1] at h ⊢
      by_cases h2 : x = '\n'
      · rw [if_pos h2] at h ⊢
      · rw [if_neg h2] at h ⊢
        cases hs : scanName (xs ++ q) with
        | some p =>
          obtain ⟨n, r⟩ := p
          simp only [hs] at h
          exact absurd h (by simp)
        | none =>
          simp only [ih (xs ++ q) hs ⟨q, rfl⟩]

/-- A line that does not match the header pattern has no initial part
that matches it either. -/
theorem markerMatch_none_of_pref (l a : List Char) (h : markerMatch l = none)
    (hp : ∃ q, a ++ q = l) : markerMatch a = none := by
  obtain ⟨q, hq⟩ := hp
  cases a with
  | nil => rfl
  | cons c a' =>
    subst hq
    rw [List.cons_append, markerMatch_cons] at h
    rw [markerMatch_cons]
    by_cases hc : c = '['
    · rw [if_pos hc] at h ⊢
      cases hs : scanName (a' ++ q) with
      | some p =>
        obtain ⟨n, r⟩ := p
        simp only [hs] at h
        exact absurd h (by simp)
      | none => simp only [scanName_none_of_pref (a' ++ q) a' hs ⟨q, rfl⟩]
    · rw [if_neg hc]

/-- A matched section name contains neither `]` nor a newline. -/
theorem scanName_some_props (l : List Char) :
    ∀ n r, scanName l = some (n, r) → ']' ∉ n ∧ '\n' ∉ n := by
  induction l with
  | nil => intro n r h; exact absurd h (by simp [scanName])
  | cons x xs ih =>
    intro n r h
    rw [scanName_cons] at h
    by_cases h1 : x = ']'
    · rw [if_pos h1] at h
      injection h with h2
      have hn : ([] : List Char) = n := congrArg Prod.fst h2
      simp [← hn]
    · rw [if_neg h1] at h
      by_cases h2 : x = '\n'
      · rw [if_pos h2] at h
        exact absurd h (by simp)
      · rw [if_neg h2] at h
        cases hs : scanName xs with
        | none =>
          simp only [hs] at h
          exact absurd h (by simp)
        | some p =>
          obtain ⟨n', r'⟩ := p
          simp only [hs] at h
          injection h with h3
          have hn : x :: n' = n := congrArg Prod.fst h3
          have := ih n' r' hs
          constructor
          · intro hmem
            rw [← hn] at hmem
            rcases List.mem_cons.mp hmem with h4 | h4
            · exact h1 h4.symm
            · exact this.1 h4
          · intro hmem
            rw [← hn] at hmem
            rcases List.mem_cons.mp hmem with h4 | h4
            · exact h2 h4.symm
            · exact this.2 h4

/-- A matched header name contains neither `]` nor a newline. -/
theorem markerMatch_some_props (l n t : List Char)
    (h : markerMatch l = some (n, t)) : ']' ∉ n ∧ '\n' ∉ n := by
  cases l with
  | nil => exact absurd h (by simp [markerMatch])
  | cons c rest =>
    rw [markerMatch_cons] at h
    by_cases hc : c = '['
    · rw [if_pos hc] at h
      cases hs : scanName rest with
      | none =>
        simp only [hs] at h
        exact absurd h (by simp)
      | some p =>
        obtain ⟨n', r'⟩ := p
        simp only [hs] at h
        injection h with h3
        have hn : n' = n := congrArg Prod.fst h3
        exact hn ▸ scanName_some_props rest n' r' hs
    · rw [if_neg hc] at h
      exact absurd h (by simp)

/-- The scan for a closed bracket over a clean name finds it. -/
theorem scanName_closed (k r : List Char) (hbr : ']' ∉ k) (hnl : '\n' ∉ k) :
    scanName (k ++ ']' :: r) = some (k, r) := by
  induction k with
  | nil => simp [scanName]
  | cons c k' ih =>
    have h1 : ¬c = ']' := fun e => hbr (by simp [e])
    have h2 : ¬c = '\n' := fun e => hnl (by simp [e])
    have h3 : ']' ∉ k' := fun e => hbr (by simp [e])
    have h4 : '\n' ∉ k' := fun e => hnl (by simp [e])
    rw [List.cons_append, scanName_cons, if_neg h1, if_neg h2]
    simp only [ih h3 h4]

/-- A reconstructed header line matches with the clean name and blank
trailing content. -/
theorem markerMatch_header (k : List Char) (hbr : ']' ∉ k) (hnl : '\n' ∉ k) :
    markerMatch ('[' :: k ++ [']']) = some (k, []) := by
  show markerMatch ('[' :: (k ++ ']' :: [])) = some (k, [])
  rw [markerMatch_cons, if_pos rfl]
  simp only [scanName_closed k [] hbr hnl]
  rfl

/- ## Comment-scan lemmas -/

/-- Group 1 of a comment match is an initial part of the line. -/
theorem scanCom_pref (mark : Char) (prev : Option Char) (l : List Char) :
    ∀ g, scanCom mark prev l = some g → ∃ q, g ++ q = l := by
  induction l generalizing prev with
  | nil => intro g h; exact absurd h (by simp [scanCom])
  | cons x xs ih =>
    intro g h
    rw [scanCom_cons] at h
    by_cases h1 : x = mark ∧ prev ≠ some '\\'
    · rw [if_pos h1] at h
      injection h with h2
      exact ⟨x :: xs, by rw [← h2]; rfl⟩
    · rw [if_neg h1] at h
      by_cases h2 : x = '\n'
      · rw [if_pos h2] at h
        exact absurd h (by simp)
      · rw [if_neg h2] at h
        cases hs : scanCom mark (some x) xs with
        | none =>
          simp only [hs] at h
          exact absurd h (by simp)
        | some g' =>
          simp only [hs] at h
          injection h with h3
          obtain ⟨q, hq⟩ := ih (some x) g' hs
          exact ⟨q, by rw [← h3, List.cons_append, hq]⟩

/-- The comment-processed line is an initial part of the raw line. -/
theorem commentProcess_pref (c : Option Char) (l l' : List Char)
    (h : commentProcess c l = some l') : ∃ q, l' ++ q = l := by
  cases c with
  | none =>
    injection h with h1
    exact ⟨[], by rw [← h1]; simp⟩
  | some mark =>
    simp only [commentProcess] at h
    cases hs : scanCom mark none l with
    | none =>
      simp only [hs] at h
      injection h with h1
      exact ⟨[], by rw [← h1]; simp⟩
    | some g =>
      simp only [hs] at h
      by_cases hg : g = []
      · rw [if_pos hg] at h
        exact absurd h (by simp)
      · rw [if_neg hg] at h
        injection h with h1
        exact h1 ▸ scanCom_pref mark none l g hs

/- ## `dedupFirst` lemmas -/

/-- Elements of the deduplication come from the list. -/
theorem mem_of_dedupFirstAux {α : Type} [DecidableEq α] (seen : List α)
    (l : List α) : ∀ x ∈ dedupFirstAux seen l, x ∈ l := by
  induction l generalizing seen with
  | nil => intro x hx; exact absurd hx (by simp [dedupFirstAux])
  | cons a t ih =>
    intro x hx
    simp only [dedupFirstAux] at hx
    by_cases h : a ∈ seen
    · rw [if_pos h] at hx
      exact List.mem_cons_of_mem _ (ih seen x hx)
    · rw [if_neg h] at hx
      rcases List.mem_cons.mp hx with h1 | h1
      · simp [h1]
      · exact List.mem_cons_of_mem _ (ih (seen ++ [a]) x h1)

/-- The deduplication avoids the already-seen elements. -/
theorem dedupFirstAux_not_seen {α : Type} [DecidableEq α] (seen : List α)
    (l : List α) : ∀ x ∈ dedupFirstAux seen l, x ∉ seen := by
  induction l generalizing seen with
  | nil => intro x hx; exact absurd hx (by simp [dedupFirstAux])
  | cons a t ih =>
    intro x hx
    simp only [dedupFirstAux] at hx
    by_cases h : a ∈ seen
    · rw [if_pos h] at hx
      exact ih seen x hx
    · rw [if_neg h] at hx
      rcases List.mem_cons.mp hx with h1 | h1
      · subst h1; exact h
      · intro hseen
        exact ih (seen ++ [a]) x h1 (List.mem_append_left _ hseen)

/-- The deduplication has no duplicates. -/
theorem dedupFirstAux_nodup {α : Type} [DecidableEq α] (seen : List α)
    (l : List α) : (dedupFirstAux seen l).Nodup := by
  induction l generalizing seen with
  | nil => simp [dedupFirstAux]
  | cons a t ih =>
    simp only [dedupFirstAux]
    by_cases h : a ∈ seen
    · rw [if_pos h]; exact ih seen
    · rw [if_neg h]
      refine List.nodup_cons.mpr ⟨?_, ih (seen ++ [a])⟩
      intro hmem
      exact dedupFirstAux_not_seen (seen ++ [a]) t a hmem (by simp)

/-- `dedupFirst` has no duplicates. -/
theorem dedupFirst_nodup {α : Type} [DecidableEq α] (l : List α) :
    (dedupFirst l).Nodup := dedupFirstAux_nodup [] l

/-- `dedupFirst` keeps only elements of the list. -/
theorem mem_of_dedupFirst {α : Type} [DecidableEq α] (l : List α) :
    ∀ x ∈ dedupFirst l, x ∈ l := mem_of_dedupFirstAux [] l

/-- Deduplicating a duplicate-free list is the identity. -/
theorem dedupFirstAux_of_nodup {α : Type} [DecidableEq α] (seen l : List α)
    (hn : l.Nodup) (hd : ∀ x ∈ l, x ∉ seen) : dedupFirstAux seen l = l := by
  induction l generalizing seen with
  | nil => rfl
  | cons a t ih =>
    simp only [dedupFirstAux]
    rw [if_neg (hd a (by simp))]
    congr 1
    refine ih (seen ++ [a]) (List.nodup_cons.mp hn).2 ?_
    intro x hx hmem
    rcases List.mem_append.mp hmem with h1 | h1
    · exact hd x (by simp [hx]) h1
    · have hxa : x = a := by simpa using h1
      subst hxa
      exact (List.nodup_cons.mp hn).1 hx

/-- `dedupFirst` of a duplicate-free list is the identity. -/
theorem dedupFirst_of_nodup {α : Type} [DecidableEq α] (l : List α)
    (hn : l.Nodup) : dedupFirst l = l :=
  dedupFirstAux_of_nodup [] l hn (by simp)

/- ## Loop invariants of the parser -/

/-- Truthiness reveals a non-empty section name. -/
theorem truthy_some {o : Option (List Char)} (h : truthy o = true) :
    ∃ k, o = some k ∧ k ≠ [] := by
  cases o with
  | none => exact absurd h (by simp [truthy])
  | some s =>
    cases s with
    | nil => exact absurd h (by simp [truthy])
    | cons a t => exact ⟨a :: t, rfl, by simp⟩

/-- The initial state satisfies the invariant. -/
theorem parseInv_init : ParseInv initPState where
  ordKeys := by intro k hk; exact absurd hk (by simp [initPState])
  secLines := by intro k a ha; exact absurd ha (by simp [initPState, getSec])
  secEmptyKey := rfl

/-- One loop step preserves the invariant. -/
theorem stepLine_inv (c : Option Char) (st st' : PState) (l : List Char)
    (hInv : ParseInv st) (hnl : '\n' ∉ l) (h : stepLine c st l = .ok st') :
    ParseInv st' := by
  simp only [stepLine] at h
  cases hc : commentProcess c l with
  | none =>
    simp only [hc] at h
    injection h with h1
    exact h1 ▸ hInv
  | some l' =>
    simp only [hc] at h
    have hnl' : '\n' ∉ l' :=
      fun hm => hnl (mem_of_pref (commentProcess_pref c l l' hc) hm)
    cases hm : markerMatch l' with
    | none =>
      simp only [hm] at h
      by_cases ht : truthy st.ins
      · rw [if_pos ht] at h
        injection h with h1
        obtain ⟨k, hins, hk⟩ := truthy_some ht
        refine { ordKeys := ?_, secLines := ?_, secEmptyKey := ?_ }
        · rw [← h1]; exact hInv.ordKeys
        · rw [← h1]
          intro k2 a ha
          rw [hins] at ha
          simp only [Option.getD_some] at ha
          by_cases hk2 : k2 = k
          · subst hk2
            rw [getSec_appendSec_self] at ha
            rcases List.mem_append.mp ha with h2 | h2
            · exact hInv.secLines k2 a h2
            · have haeq : a = l' := by simpa using h2
              subst haeq
              exact ⟨hm, hnl'⟩
          · rw [getSec_appendSec_ne _ _ _ _ hk2] at ha
            exact hInv.secLines k2 a ha
        · rw [← h1]
          rw [hins]
          simp only [Option.getD_some]
          rw [getSec_appendSec_ne _ _ _ _ (fun e => hk e.symm)]
          exact hInv.secEmptyKey
      · rw [if_neg ht] at h
        injection h with h1
        exact h1 ▸ hInv
    | some p =>
      obtain ⟨n, t⟩ := p
      simp only [hm] at h
      by_cases htr : stripLC t ≠ []
      · rw [if_pos htr] at h
        exact absurd h (by simp)
      · rw [if_neg htr] at h
        injection h with h1
        refine { ordKeys := ?_, secLines := ?_, secEmptyKey := ?_ }
        · rw [← h1]
          intro k2 hk2
          rcases List.mem_append.mp hk2 with h2 | h2
          · exact hInv.ordKeys k2 h2
          · have hkn : k2 = n := by simpa using h2
            subst hkn
            exact markerMatch_some_props l' k2 t hm
        · rw [← h1]; exact hInv.secLines
        · rw [← h1]; exact hInv.secEmptyKey

/-- The loop preserves the invariant. -/
theorem runLines_inv (c : Option Char) (ls : List (List Char)) :
    ∀ st st', ParseInv st → (∀ l ∈ ls, '\n' ∉ l) → runLines c st ls = .ok st' →
      ParseInv st' := by
  induction ls with
  | nil =>
    intro st st' hInv _ h
    injection h with h1
    exact h1 ▸ hInv
  | cons l rest ih =>
    intro st st' hInv hnl h
    simp only [runLines] at h
    cases hse : stepLine c st l with
    | error e => rw [hse] at h; exact absurd h (by simp)
    | ok st1 =>
      rw [hse] at h
      exact ih st1 st' (stepLine_inv c st st1 l hInv (hnl l (by simp)) hse)
        (fun x hx => hnl x (by simp [hx])) h

/-- The loop appends exactly the header sequence to `orderedsections`. -/
theorem runLines_ordered (c : Option Char) (ls : List (List Char)) :
    ∀ st st', runLines c st ls = .ok st' →
      st'.ordered = st.ordered ++ headerSeq c ls := by
  induction ls with
  | nil =>
    intro st st' h
    injection h with h1
    rw [← h1]
    simp [headerSeq]
  | cons l rest ih =>
    intro st st' h
    simp only [runLines] at h
    cases hse : stepLine c st l with
    | error e => rw [hse] at h; exact absurd h (by simp)
    | ok st1 =>
      rw [hse] at h
      have h2 := ih st1 st' h
      simp only [stepLine] at hse
      simp only [headerSeq, List.filterMap_cons]
      cases hc : commentProcess c l with
      | none =>
        simp only [hc] at hse ⊢
        injection hse with h3
        rw [h2, ← h3]
        simp [headerSeq]
      | some l' =>
        simp only [hc] at hse ⊢
        cases hm : markerMatch l' with
        | none =>
          simp only [hm] at hse ⊢
          have hord : st1.ordered = st.ordered := by
            by_cases ht : truthy st.ins
            · rw [if_pos ht] at hse
              injection hse with h3
              rw [← h3]
            · rw [if_neg ht] at hse
              injection hse with h3
              rw [← h3]
          rw [h2, hord]
          simp [headerSeq, Option.bind, hm]
        | some p =>
          obtain ⟨n, t⟩ := p
          simp only [hm] at hse ⊢
          by_cases htr : stripLC t ≠ []
          · rw [if_pos htr] at hse
            exact absurd hse (by simp)
          · rw [if_neg htr] at hse
            injection hse with h3
            have htr' : stripLC t = [] := not_not.mp htr
            rw [h2, ← h3]
            show (st.ordered ++ [n]) ++ headerSeq c rest = _
            simp [headerSeq, Option.bind, hm, htr']

/- ## Goodness of the produced Section Map -/

/-- The body of every section is right-trimmed, and none of its lines
matches the header pattern. -/
theorem body_lines_good (ls : List (List Char))
    (h : ∀ a ∈ ls, markerMatch a = none ∧ '\n' ∉ a) :
    ∀ a ∈ splitNl (rstripLC (joinNl ls)), markerMatch a = none := by
  cases ls with
  | nil =>
    intro a ha
    have ha' : a = [] := by
      simpa [joinNl, joinCh, rstripLC, splitNl, splitCh] using ha
    simp [ha', markerMatch]
  | cons l0 ls' =>
    intro a ha
    obtain ⟨q, hq⟩ := rstripLC_pref (joinNl (l0 :: ls'))
    simp only [splitNl] at ha
    obtain ⟨b, hb, hbq⟩ :=
      mem_splitCh_pref '\n' (rstripLC (joinNl (l0 :: ls'))) q a ha
    rw [hq] at hb
    have hsplit : splitCh '\n' (joinCh '\n' (l0 :: ls')) = l0 :: ls' :=
      splitCh_joinCh '\n' (l0 :: ls') (fun x hx => (h x hx).2) (by simp)
    rw [show joinNl (l0 :: ls') = joinCh '\n' (l0 :: ls') from rfl, hsplit] at hb
    exact markerMatch_none_of_pref b a (h b hb).1 hbq

/-- The entries of the finished map are good, its keys are exactly the
first occurrences of `orderedsections`, without duplicates. -/
theorem finishMap_good (st : PState) (hInv : ParseInv st) :
    (∀ kv ∈ finishMap st, GoodEntry kv) ∧
    ((finishMap st).map Prod.fst).Nodup ∧
    (finishMap st).map Prod.fst = dedupFirst st.ordered := by
  have hkeys : (finishMap st).map Prod.fst = dedupFirst st.ordered := by
    rw [finishMap, List.map_map]
    show (dedupFirst st.ordered).map (fun k => k) = dedupFirst st.ordered
    simp
  refine ⟨?_, hkeys ▸ dedupFirst_nodup st.ordered, hkeys⟩
  intro kv hkv
  simp only [finishMap, List.mem_map] at hkv
  obtain ⟨k, hk, hkv'⟩ := hkv
  have hkord := mem_of_dedupFirst st.ordered k hk
  have hprops := hInv.ordKeys k hkord
  subst hkv'
  refine { noBr := hprops.1, noNl := hprops.2, stripped := rstripLC_idem _,
           bodyLines := ?_, emptyKey := ?_ }
  · exact body_lines_good (getSec st.sec k) (fun a ha => hInv.secLines k a ha)
  · intro hke
    show rstripLC (joinNl (getSec st.sec k)) = []
    rw [show k = [] from hke, hInv.secEmptyKey]
    rfl

/- ## Reparsing a reconstruction -/

/-- A reconstructed block splits back into its header line and body lines. -/
theorem splitNl_blockLine (kv : List Char × List Char) (hnl : '\n' ∉ kv.1) :
    splitCh '\n' ('[' :: kv.1 ++ ']' :: '\n' :: kv.2) = blockLines kv := by
  have h1 : ('[' :: kv.1 ++ ']' :: '\n' :: kv.2) =
      ('[' :: kv.1 ++ [']']) ++ '\n' :: kv.2 := by simp
  have h2 : '\n' ∉ ('[' :: kv.1 ++ [']']) := by
    intro hm
    rcases List.mem_cons.mp hm with h3 | h3
    · exact absurd h3 (by decide)
    · rcases List.mem_append.mp h3 with h4 | h4
      · exact hnl h4
      · simp only [List.mem_singleton] at h4
        exact absurd h4 (by decide)
  rw [h1, splitCh_append_sep, splitCh_no_sep '\n' _ h2]
  rfl

/-- The reconstruction splits into the concatenated block lines. -/
theorem splitNl_reconstruct (m : List (List Char × List Char)) (hm : m ≠ [])
    (hnl : ∀ kv ∈ m, '\n' ∉ kv.1) :
    splitNl (reconstructLC m) = (m.map blockLines).flatten := by
  induction m with
  | nil => exact absurd rfl hm
  | cons kv rest ih =>
    cases rest with
    | nil =>
      show splitCh '\n' ('[' :: kv.1 ++ ']' :: '\n' :: kv.2) =
        ([kv].map blockLines).flatten
      rw [splitNl_blockLine kv (hnl kv (by simp))]
      simp
    | cons kv2 rest2 =>
      have hj : reconstructLC (kv :: kv2 :: rest2) =
          ('[' :: kv.1 ++ ']' :: '\n' :: kv.2) ++ '\n' ::
            reconstructLC (kv2 :: rest2) := by
        show joinCh '\n' (('[' :: kv.1 ++ ']' :: '\n' :: kv.2) ::
          (kv2 :: rest2).map (fun p => '[' :: p.1 ++ ']' :: '\n' :: p.2)) = _
        exact joinCh_cons '\n' _ _ (by simp)
      show splitCh '\n' (reconstructLC (kv :: kv2 :: rest2)) = _
      rw [hj, splitCh_append_sep, splitNl_blockLine kv (hnl kv (by simp))]
      have ih2 := ih (by simp) (fun x hx => hnl x (by simp [hx]))
      rw [show splitCh '\n' (reconstructLC (kv2 :: rest2)) =
        splitNl (reconstructLC (kv2 :: rest2)) from rfl, ih2]
      simp

/-- Unfolding `bodyApp` on a cons. -/
theorem bodyApp_cons (kv : List Char × List Char)
    (rest : List (List Char × List Char)) (k : List Char) :
    bodyApp (kv :: rest) k =
      (if kv.1 = k ∧ kv.1 ≠ [] then splitNl kv.2 else []) ++ bodyApp rest k := by
  simp [bodyApp]

/-- Reparsing one block: the header opens the section, then its body lines
are appended (or discarded for the falsy empty name). -/
theorem runLines_block (kv : List Char × List Char) (hgkv : GoodEntry kv)
    (st : PState) :
    ∃ sec', runLines none st (blockLines kv) =
      .ok ⟨sec', st.ordered ++ [kv.1], some kv.1⟩ ∧
      ∀ k, getSec sec' k = getSec st.sec k ++
        (if kv.1 = k ∧ kv.1 ≠ [] then splitNl kv.2 else []) := by
  have hhdr : stepLine none st ('[' :: kv.1 ++ [']']) =
      .ok { st with ordered := st.ordered ++ [kv.1], ins := some kv.1 } := by
    simp only [stepLine, commentProcess,
      markerMatch_header kv.1 hgkv.noBr hgkv.noNl]
    rfl
  by_cases hk : kv.1 = []
  · have hbody : kv.2 = [] := hgkv.emptyKey hk
    refine ⟨st.sec, ?_, ?_⟩
    · rw [blockLines, hbody]
      show runLines none st (('[' :: kv.1 ++ [']']) :: [[]]) = _
      simp only [runLines, hhdr]
      rw [hk]
      rfl
    · intro k
      rw [if_neg (fun hh => hh.2 hk), List.append_nil]
  · refine ⟨(splitNl kv.2).foldl (fun s l => appendSec s kv.1 l) st.sec, ?_, ?_⟩
    · rw [blockLines]
      simp only [runLines, hhdr]
      rw [runLines_acc (splitNl kv.2)
        { st with ordered := st.ordered ++ [kv.1], ins := some kv.1 } kv.1
        hgkv.bodyLines rfl hk]
    · intro k
      by_cases hk2 : kv.1 = k
      · subst hk2
        rw [getSec_foldl_self, if_pos ⟨rfl, hk⟩]
      · rw [getSec_foldl_ne _ _ _ _ (fun e => hk2 e.symm),
          if_neg (fun hh => hk2 hh.1), List.append_nil]

/-- Reparsing all blocks: the headers are recorded in order and each body
is appended under its key. -/
theorem runLines_blocks (m : List (List Char × List Char)) :
    ∀ st, (∀ kv ∈ m, GoodEntry kv) →
      ∃ st', runLines none st ((m.map blockLines).flatten) = .ok st' ∧
        st'.ordered = st.ordered ++ m.map Prod.fst ∧
        ∀ k, getSec st'.sec k = getSec st.sec k ++ bodyApp m k := by
  induction m with
  | nil =>
    intro st _
    exact ⟨st, rfl, by simp, fun k => by simp [bodyApp]⟩
  | cons kv rest ih =>
    intro st hg
    obtain ⟨sec1, hb1, hb2⟩ := runLines_block kv (hg kv (by simp)) st
    obtain ⟨st', h1, h2, h3⟩ := ih ⟨sec1, st.ordered ++ [kv.1], some kv.1⟩
      (fun x hx => hg x (by simp [hx]))
    refine ⟨st', ?_, ?_, ?_⟩
    · rw [List.map_cons, List.flatten_cons, runLines_append]
      simp only [hb1]
      exact h1
    · rw [h2]
      simp
    · intro k
      rw [h3 k, bodyApp_cons]
      show getSec sec1 k ++ bodyApp rest k = _
      rw [hb2 k, List.append_assoc]

/-- Body lines of a key not bound in the map. -/
theorem bodyApp_not_mem (m : List (List Char × List Char)) (k : List Char)
    (h : ∀ kv ∈ m, kv.1 ≠ k) : bodyApp m k = [] := by
  induction m with
  | nil => rfl
  | cons kv rest ih =>
    rw [bodyApp_cons, if_neg (fun hh => h kv (by simp) hh.1), List.nil_append]
    exact ih (fun x hx => h x (by simp [hx]))

/-- With duplicate-free keys, the body lines under an entry's key are
exactly that entry's split body (none for the empty name). -/
theorem bodyApp_entry (m : List (List Char × List Char))
    (kv : List Char × List Char) (hkv : kv ∈ m)
    (hn : (m.map Prod.fst).Nodup) :
    bodyApp m kv.1 = if kv.1 = [] then [] else splitNl kv.2 := by
  induction m with
  | nil => cases hkv
  | cons kv0 rest ih =>
    have hn' : kv0.1 ∉ rest.map Prod.fst ∧ (rest.map Prod.fst).Nodup := by
      rw [List.map_cons] at hn
      exact List.nodup_cons.mp hn
    rcases List.mem_cons.mp hkv with h1 | h1
    · subst h1
      rw [bodyApp_cons]
      have hrest : ∀ kv' ∈ rest, kv'.1 ≠ kv.1 := by
        intro kv' hkv' he
        exact hn'.1 (he ▸ List.mem_map_of_mem Prod.fst hkv')
      rw [bodyApp_not_mem rest kv.1 hrest, List.append_nil]
      by_cases hke : kv.1 = []
      · rw [if_neg (fun hh => hh.2 hke), if_pos hke]
      · rw [if_pos ⟨rfl, hke⟩, if_neg hke]
    · have hne : kv0.1 ≠ kv.1 := by
        intro he
        exact hn'.1 (he ▸ List.mem_map_of_mem Prod.fst h1)
      rw [bodyApp_cons, if_neg (fun hh => hne hh.1), List.nil_append]
      exact ih h1 hn'.2

/-- Rebuilding a map from its keys through a faithful body function. -/
theorem map_keys_restore (m : List (List Char × List Char))
    (f : List Char → List Char) (h : ∀ kv ∈ m, f kv.1 = kv.2) :
    (m.map Prod.fst).map (fun k => (k, f k)) = m := by
  induction m with
  | nil => rfl
  | cons kv rest ih =>
    simp only [List.map_cons]
    rw [h kv (by simp), ih (fun x hx => h x (by simp [hx]))]

/-- Reparsing the reconstruction of a good, duplicate-free Section Map
returns the map itself. -/
theorem reconstruct_reparse (m : List (List Char × List Char))
    (hg : ∀ kv ∈ m, GoodEntry kv) (hn : (m.map Prod.fst).Nodup) :
    parseTextLC none (reconstructLC m) = .ok m := by
  cases m with
  | nil => rfl
  | cons kv0 rest0 =>
    simp only [parseTextLC, parseLinesTop]
    rw [splitNl_reconstruct _ (by simp) (fun kv hkv => (hg kv hkv).noNl)]
    obtain ⟨st', h1, h2, h3⟩ := runLines_blocks _ initPState hg
    rw [h1]
    show Except.ok (finishMap st') = Except.ok _
    congr 1
    rw [finishMap]
    have hord : st'.ordered = (kv0 :: rest0).map Prod.fst := by
      rw [h2]
      rfl
    rw [hord, dedupFirst_of_nodup _ hn]
    refine map_keys_restore _ _ ?_
    intro kv hkv
    rw [h3 kv.1]
    show rstripLC (joinNl (getSec initPState.sec kv.1 ++
      bodyApp (kv0 :: rest0) kv.1)) = kv.2
    rw [show getSec initPState.sec kv.1 = [] from rfl, List.nil_append,
      bodyApp_entry _ kv hkv hn]
    by_cases hke : kv.1 = []
    · rw [if_pos hke, (hg kv hkv).emptyKey hke]
      rfl
    · rw [if_neg hke]
      rw [show joinNl (splitNl kv.2) = kv.2 from joinCh_splitCh '\n' kv.2]
      exact (hg kv hkv).stripped

/- ## C7: the round trip -/

/-- A successful parse yields a good map whose keys are the
first-appearance deduplication of the header sequence. -/
theorem parseTextLC_ok_good (c : Option Char) (s : List Char)
    (m : List (List Char × List Char)) (h : parseTextLC c s = .ok m) :
    (∀ kv ∈ m, GoodEntry kv) ∧ (m.map Prod.fst).Nodup ∧
    m.map Prod.fst = dedupFirst (headerSeq c (splitNl s)) := by
  simp only [parseTextLC, parseLinesTop] at h
  cases hr : runLines c initPState (splitNl s) with
  | error e => rw [hr] at h; exact absurd h (by simp [Except.map])
  | ok st' =>
    rw [hr] at h
    have h' : Except.ok (finishMap st') = Except.ok m := h
    injection h' with hm
    have hInv := runLines_inv c (splitNl s) initPState st' parseInv_init
      (fun l hl => mem_splitCh_no_sep '\n' s l hl) hr
    have hord := runLines_ordered c (splitNl s) initPState st' hr
    obtain ⟨hgood, hnodup, hkeys⟩ := finishMap_good st' hInv
    rw [hm] at hgood hnodup hkeys
    refine ⟨hgood, hnodup, ?_⟩
    rw [hkeys, hord]
    rfl

/-- The round trip at the character-list level. -/
theorem parse_round_trip_LC (c : Option Char) (s : List Char)
    (m : List (List Char × List Char)) (h : parseTextLC c s = .ok m) :
    m.map Prod.fst = dedupFirst (headerSeq c (splitNl s)) ∧
    parseTextLC none (reconstructLC m) = .ok m := by
  obtain ⟨hg, hn, hk⟩ := parseTextLC_ok_good c s m h
  exact ⟨hk, reconstruct_reparse m hg hn⟩

/-- Converting to strings and back is the identity. -/
theorem destringify_stringify (l : List (List Char × List Char)) :
    (l.map (fun kv => (String.mk kv.1, String.mk kv.2))).map
      (fun kv => (kv.1.data, kv.2.data)) = l := by
  induction l with
  | nil => rfl
  | cons kv rest ih => simp [ih]

/-- C7: for every valid input, the Section Map's keys are the header names
in first-appearance order, and reconstructing `[name]\n<body>` blocks in
that order and reparsing reproduces exactly the same (name, trimmed-body)
pairs — also when the same section name appears under several headers. -/
theorem load_settings_round_trip (c : Option Char) (s : String)
    (m : List (String × String)) (h : load_settings s c = .ok m) :
    m.map Prod.fst = (dedupFirst (headerSeq c (splitNl s.data))).map String.mk ∧
    load_settings (reconstructS m) none = .ok m := by
  simp only [load_settings] at h
  cases hp : parseTextLC c s.data with
  | error e => rw [hp] at h; exact absurd h (by simp [Except.map])
  | ok m' =>
    rw [hp] at h
    have h' : Except.ok (m'.map (fun kv => (String.mk kv.1, String.mk kv.2))) =
        Except.ok m := h
    injection h' with hm
    obtain ⟨hk, hrt⟩ := parse_round_trip_LC c s.data m' hp
    constructor
    · rw [← hm, ← hk, List.map_map, List.map_map]
      rfl
    · rw [← hm]
      simp only [load_settings, reconstructS]
      rw [destringify_stringify, hrt]
      rfl

/-- Witness for C7 on an input with a duplicate section name and a comment
marker. -/
theorem load_settings_round_trip_witness :
    load_settings "[a]\nhello\n[b]\nworld\n[a]\nmore" (some '#') =
      .ok [("a", "hello\nmore"), ("b", "world")] ∧
    ([("a", "hello\nmore"), ("b", "world")].map Prod.fst =
      (dedupFirst (headerSeq (some '#')
        (splitNl "[a]\nhello\n[b]\nworld\n[a]\nmore".data))).map String.mk ∧
     load_settings (reconstructS [("a", "hello\nmore"), ("b", "world")]) none =
      .ok [("a", "hello\nmore"), ("b", "world")]) :=
  ⟨rfl, load_settings_round_trip (some '#') "[a]\nhello\n[b]\nworld\n[a]\nmore"
    [("a", "hello\nmore"), ("b", "world")] rfl⟩

end Cvifier
